import Mathlib

/-!
Verification development for the LLM-client utility (`utils/call_llm.py` and the
older `_site/utils/call_llm.py` copy).  Python strings are modelled as `List Char`,
the on-disk JSON cache as an association list, the remote endpoint and the random
number generator as oracle streams, and wall-clock waits as the rational wait
values passed to `time.sleep` (recorded as trace events).  All definitions are
translated from the Python source; theorems at the end settle the frozen claims.
-/

/-- Whitespace test matching `str.strip()` for the ASCII range (space, tab,
newline, carriage return, vertical tab, form feed). -/
def pyIsSpace (c : Char) : Bool :=
  c = ' ' || c = '\t' || c = '\n' || c = '\r' || c = '\x0b' || c = '\x0c'

/-- Model of Python `str.strip()`: drop leading and trailing whitespace. -/
def pyStrip (l : List Char) : List Char :=
  ((l.dropWhile pyIsSpace).reverse.dropWhile pyIsSpace).reverse

/-- Boolean prefix test (`pat` begins `l`). -/
def leadsWith : List Char → List Char → Bool
  | [], _ => true
  | _ :: _, [] => false
  | a :: pa, b :: l => a = b && leadsWith pa l

/-- Boolean substring test, modelling Python `pat in s` for nonempty `pat`. -/
def occursIn (pat : List Char) : List Char → Bool
  | [] => leadsWith pat []
  | c :: r => leadsWith pat (c :: r) || occursIn pat r

/-- Fuelled worker for `pyReplace`; fuel bounds the scan length so the
definition is structural (hence kernel-reducible). -/
def replaceAux (pat repl : List Char) : Nat → List Char → List Char
  | 0, l => l
  | fuel + 1, l =>
    if pat ≠ [] ∧ leadsWith pat l then
      repl ++ replaceAux pat repl fuel (l.drop pat.length)
    else
      match l with
      | [] => []
      | c :: r => c :: replaceAux pat repl fuel r

/-- Model of Python `str.replace(pat, repl)`: left-to-right, non-overlapping. -/
def pyReplace (l pat repl : List Char) : List Char :=
  replaceAux pat repl l.length l

/-- Prepend a character to the first piece of a split result. -/
def consHead (c : Char) : List (List Char) → List (List Char)
  | [] => [[c]]
  | h :: t => (c :: h) :: t

/-- Fuelled worker for `splitOnSeq`. -/
def splitOnAux (pat : List Char) : Nat → List Char → List (List Char)
  | 0, l => [l]
  | fuel + 1, l =>
    if pat ≠ [] ∧ leadsWith pat l then
      [] :: splitOnAux pat fuel (l.drop pat.length)
    else
      match l with
      | [] => [[]]
      | c :: r => consHead c (splitOnAux pat fuel r)

/-- Model of Python `str.split(pat)` for a nonempty separator `pat`. -/
def splitOnSeq (pat l : List Char) : List (List Char) :=
  splitOnAux pat l.length l

/-- The paragraph separator `"\n\n"` used by `chunk_text`. -/
def nn : List Char := ['\n', '\n']

/-- Dedicated structural model of `text.split("\n\n")` (same behaviour as
`splitOnSeq nn`, but directly structural, which keeps proofs simple). -/
def splitSep2 : List Char → List (List Char)
  | [] => [[]]
  | [c] => [[c]]
  | a :: b :: r =>
    if a = '\n' ∧ b = '\n' then [] :: splitSep2 r
    else consHead a (splitSep2 (b :: r))

/-- The marker string `"[SPLIT]"` inserted by `split_into_sentences`. -/
def splitMark : List Char := ("[SPLIT]").toList

/-- The six sentence delimiters of `split_into_sentences`, in source order. -/
def sentenceDelims : List (List Char) :=
  [(". ").toList, ("! ").toList, ("? ").toList,
   (".\n").toList, ("!\n").toList, ("?\n").toList]

/-- Model of `split_into_sentences` (`utils/call_llm.py` lines 273-281): insert
`[SPLIT]` after each delimiter occurrence, split on the marker, strip each piece
and keep the nonempty ones. -/
def split_into_sentences (text : List Char) : List (List Char) :=
  let marked := sentenceDelims.foldl (fun t d => pyReplace t d (d ++ splitMark)) text
  ((splitOnSeq splitMark marked).map pyStrip).filter (fun s => s ≠ [])

/-- Accumulator of the `chunk_text` loops: finished chunks plus the running
`current_chunk`. -/
structure ChunkSt where
  chunks : List (List Char)
  cur : List Char
deriving DecidableEq

/-- One step of the sentence-packing inner loop of `chunk_text`
(lines 252-257). -/
def chunkStepSentence (max_size : Nat) (st : ChunkSt) (s : List Char) : ChunkSt :=
  if st.cur.length + s.length + 1 > max_size then
    ⟨st.chunks ++ [st.cur], s⟩
  else
    ⟨st.chunks, if st.cur.isEmpty then s else st.cur ++ [' '] ++ s⟩

/-- One step of the paragraph loop of `chunk_text` (lines 241-265).  The Python
test `len(current_chunk) > max_size * 0.5` is the exact real comparison
`2 * len > max_size` (the float `max_size * 0.5` is exact for any realistic
`max_size`). -/
def chunkStepPara (max_size : Nat) (st : ChunkSt) (p : List Char) : ChunkSt :=
  if st.cur.length + p.length + 2 > max_size then
    if 2 * st.cur.length > max_size then
      ⟨st.chunks ++ [st.cur], p⟩
    else if p.length > max_size then
      (split_into_sentences p).foldl (chunkStepSentence max_size) st
    else
      ⟨st.chunks ++ [st.cur], p⟩
  else
    ⟨st.chunks, if st.cur.isEmpty then p else st.cur ++ nn ++ p⟩

/-- Model of `chunk_text` (`utils/call_llm.py` lines 230-271). -/
def chunk_text (text : List Char) (max_size : Nat) : List (List Char) :=
  if text.length ≤ max_size then [text]
  else
    let fin := (splitSep2 text).foldl (chunkStepPara max_size) ⟨[], []⟩
    if fin.cur.isEmpty then fin.chunks else fin.chunks ++ [fin.cur]

/-- The chunking threshold `MAX_CHUNK_SIZE` of `utils/call_llm.py` (line 42). -/
def MAX_CHUNK_SIZE : Nat := 500000

/-- Model of Python `sep.join(parts)`. -/
def joinSep (sep : List Char) : List (List Char) → List Char
  | [] => []
  | [x] => x
  | x :: y :: t => x ++ sep ++ joinSep sep (y :: t)

/-! ### Failure classification and backoff (`utils/call_llm.py` lines 84-224) -/

/-- ASCII apostrophe, written via its code point. -/
def quoteC : Char := Char.ofNat 39

/-- Pattern `"Connection reset"`. -/
def connResetPat : List Char := ("Connection reset").toList

/-- Pattern `"ConnectError"`. -/
def connErrPat : List Char := ("ConnectError").toList

/-- Pattern `"RESOURCE_EXHAUSTED"`. -/
def resourcePat : List Char := ("RESOURCE_EXHAUSTED").toList

/-- Pattern `"429"`. -/
def code429Pat : List Char := ("429").toList

/-- Pattern `"retryDelay"`. -/
def retryDelayPat : List Char := ("retryDelay").toList

/-- Extraction pattern for the server hint: apostrophe, `retryDelay`,
apostrophe, colon, space, apostrophe. -/
def rdQuotePat : List Char :=
  [quoteC] ++ retryDelayPat ++ [quoteC, ':', ' ', quoteC]

/-- Terminator pattern `s` followed by an apostrophe. -/
def sQuotePat : List Char := ['s', quoteC]

/-- Connection-reset classification (line 142). -/
def isConnClass (msg : List Char) : Bool :=
  occursIn connResetPat msg || occursIn connErrPat msg

/-- Rate-limit classification (line 153), reached only when `isConnClass`
fails. -/
def isRateClass (msg : List Char) : Bool :=
  occursIn resourcePat msg || occursIn code429Pat msg

/-- Numeric value of a digit string (helper for `pyFloatParse`). -/
def digitsNat (l : List Char) : Nat :=
  l.foldl (fun n c => 10 * n + (c.toNat - 48)) 0

/-- Model of Python `float()` restricted to the shapes that occur in
`retryDelay` payloads: a nonempty digit string with an optional single decimal
point (`"12"`, `"12.5"`, `"12."`, `".5"`).  Anything else is `none`, which the
caller treats like the `except: pass` in the source. -/
def pyFloatParse (l : List Char) : Option ℚ :=
  match splitOnSeq ['.'] l with
  | [a] => if a ≠ [] ∧ a.all Char.isDigit then some (digitsNat a) else none
  | [a, b] =>
    if a ++ b ≠ [] ∧ (a ++ b).all Char.isDigit then
      some ((digitsNat a : ℚ) + (digitsNat b : ℚ) / 10 ^ b.length)
    else none
  | _ => none

/-- Model of the server-hint extraction (lines 160-168):
`error_msg.split("'retryDelay': '")[1].split("s'")[0]` passed to `float`,
with every failure collapsing to `none` (the `except: pass`). -/
def extractRetryDelay (msg : List Char) : Option ℚ :=
  match splitOnSeq rdQuotePat msg with
  | _ :: part1 :: _ =>
    match splitOnSeq sQuotePat part1 with
    | first :: _ => pyFloatParse first
    | [] => none
  | _ => none

/-- The server hint actually used by the code: the extraction runs only under
`if "retryDelay" in error_msg` (line 160). -/
def googleHint (msg : List Char) : Option ℚ :=
  if occursIn retryDelayPat msg then extractRetryDelay msg else none

/-- Result of one pass through the `except` handler: the wait passed to the
final `time.sleep`, the updated consecutive-connection-error counter, the
extended cooldown sleep (if the threshold fired), and how many random draws
were consumed. -/
structure WaitOut where
  wait : ℚ
  connErrs : Nat
  cooldown : Option ℚ
  draws : Nat
deriving DecidableEq

/-- Model of the `except` handler of `call_llm` (lines 138-224) as a pure
function.  `retry_count` is the already-incremented counter (line 140),
`connErrs` the incoming consecutive-connection-error count, `u1`/`u2` the next
unit random draws (`random.uniform (a, b) = a + (b - a) * u`).  The quota-id
parsing of lines 170-213 only produces log output and is omitted. -/
def classifyWait (msg : List Char) (retry_count connErrs : Nat) (u1 u2 : ℚ) :
    WaitOut :=
  if isConnClass msg then
    let ce := connErrs + 1
    if ce ≥ 10 then ⟨45 + 15 * u1, 0, some 180, 1⟩
    else ⟨45 + 15 * u1, ce, none, 1⟩
  else if isRateClass msg then
    let jitter := (4 / 5 : ℚ) + (2 / 5 : ℚ) * u1
    let defaultWait := ((min (15 + retry_count * 5) 60 : Nat) : ℚ) * jitter
    match googleHint msg with
    | some g => ⟨g * (1 + (1 / 5 : ℚ) * u2), connErrs, none, 2⟩
    | none => ⟨defaultWait, connErrs, none, 1⟩
  else ⟨15 + 10 * u1, connErrs, none, 1⟩

/-! ### The orchestrator model -/

/-- Outcome of one remote `generate_content` attempt. -/
inductive Outcome
  | ok (text : List Char)
  | fail (msg : List Char)
deriving DecidableEq

/-- Environment of a run: the remote endpoint as a stream of per-attempt
outcomes, and the random generator as a stream of unit draws. -/
structure Env where
  oracle : Nat → Outcome
  urand : Nat → ℚ

/-- State of the cache file `llm_cache.json`: missing, present but not valid
JSON, or a parsed prompt-to-response map. -/
inductive FileSt
  | absent
  | invalid
  | valid (cache : List (List Char × List Char))
deriving DecidableEq

/-- Observable events of a run.  `sleep` records every `time.sleep` with its
wait in seconds; `alarmSet`/`alarmClear` record `signal.alarm` calls (the
wall-clock timeout mechanism of the `_site` variant); `warn` is the cache-load
warning; `cacheStore` a cache-file write; `chunkFailed i` the `except` handler
of the chunk loop firing for chunk index `i`. -/
inductive Event
  | remote (prompt : List Char)
  | sleep (t : ℚ)
  | warn
  | cacheStore
  | chunkFailed (i : Nat)
  | alarmSet (n : Nat)
  | alarmClear
deriving DecidableEq

/-- Mutable state threaded through a run: the cache file, the next oracle
index, the next random-draw index, and the event trace (appended at the end). -/
structure St where
  file : FileSt
  oIdx : Nat
  rIdx : Nat
  evs : List Event
deriving DecidableEq

/-- Terminal failures of the model. -/
inductive Err
  | retriesExhausted
  | fuelOut
deriving DecidableEq

/-- Decidable equality for `Except` results. -/
def exceptDecEq {ε α : Type} [DecidableEq ε] [DecidableEq α] :
    (x y : Except ε α) → Decidable (x = y)
  | .ok a, .ok b =>
    if h : a = b then .isTrue (congrArg Except.ok h)
    else .isFalse (fun hh => h (Except.ok.inj hh))
  | .error a, .error b =>
    if h : a = b then .isTrue (congrArg Except.error h)
    else .isFalse (fun hh => h (Except.error.inj hh))
  | .ok _, .error _ => .isFalse (fun hh => Except.noConfusion hh)
  | .error _, .ok _ => .isFalse (fun hh => Except.noConfusion hh)

instance {ε α : Type} [DecidableEq ε] [DecidableEq α] : DecidableEq (Except ε α) :=
  exceptDecEq

/-- Lookup in the cache map (Python `prompt in cache` / `cache[prompt]`). -/
def lookupKV : List (List Char × List Char) → List Char → Option (List Char)
  | [], _ => none
  | (k, v) :: t, key => if k = key then some v else lookupKV t key

/-- Update of the cache map (Python `cache[prompt] = response`). -/
def insertKV : List (List Char × List Char) → List Char → List Char →
    List (List Char × List Char)
  | [], key, v => [(key, v)]
  | (k, w) :: t, key, v =>
    if k = key then (k, v) :: t else (k, w) :: insertKV t key v

/-- Cache content as read with `except: pass` (lines 117-123): an unreadable
or missing file yields the empty map silently. -/
def readQuiet : FileSt → List (List Char × List Char)
  | .valid c => c
  | _ => []

/-- Cache read at the head of direct mode (lines 67-74): same as `readQuiet`,
but a parse failure additionally logs a warning. -/
def cacheRead1 (st : St) : List (List Char × List Char) × St :=
  match st.file with
  | .absent => ([], st)
  | .invalid => ([], { st with evs := st.evs ++ [Event.warn] })
  | .valid c => (c, st)

/-- The per-call retry loop of `call_llm` (lines 92-228), with `rem` the number
of remaining iterations (`max_retries - retry_count`), `rc` the current
`retry_count` and `ce` the consecutive-connection-error counter.  Each
iteration consumes one oracle outcome; a failure classifies the message,
sleeps (cooldown first if the threshold fired), and loops; running out of
iterations models the terminal `raise` (line 228). -/
def retryLoop (env : Env) (prompt : List Char) (useCache : Bool) :
    Nat → Nat → Nat → St → Except Err (List Char) × St
  | 0, _, _, st => (.error .retriesExhausted, st)
  | rem + 1, rc, ce, st =>
    let st1 : St := { st with oIdx := st.oIdx + 1, evs := st.evs ++ [Event.remote prompt] }
    match env.oracle st.oIdx with
    | .ok text =>
      if useCache then
        let st2 : St := { st1 with
          file := .valid (insertKV (readQuiet st1.file) prompt text),
          evs := st1.evs ++ [Event.cacheStore] }
        (.ok text, st2)
      else (.ok text, st1)
    | .fail msg =>
      let rc2 := rc + 1
      let w := classifyWait msg rc2 ce (env.urand st1.rIdx) (env.urand (st1.rIdx + 1))
      let st2 : St := { st1 with
        rIdx := st1.rIdx + w.draws,
        evs := st1.evs ++
          (match w.cooldown with | some t => [Event.sleep t] | none => []) ++
          [Event.sleep w.wait] }
      retryLoop env prompt useCache rem rc2 w.connErrs st2

/-- Request sort for the fuelled interpreter: a top-level or per-chunk
`call_llm` invocation, or the chunk loop of `process_chunks_with_timeout`
starting at chunk index `i`. -/
inductive Req
  | call (prompt : List Char)
  | chunkLoop (i : Nat) (chunks : List (List Char))

/-- Result sort matching `Req`. -/
inductive Res
  | text (r : Except Err (List Char))
  | list (rs : List (List Char))

/-- Python `f"[Error processing chunk {k}]"` (line 359). -/
def errMarker (k : Nat) : List Char :=
  ("[Error processing chunk ").toList ++ Nat.toDigits 10 k ++ ("]").toList

/-- Fuelled interpreter for `call_llm` (lines 36-228) together with the chunk
loop of `process_chunks_with_timeout` (lines 313-371) of `utils/call_llm.py`.
Fuel only bounds the mutual recursion depth (`call_llm` on an oversized prompt
re-chunks, and each chunk is processed by a recursive `call_llm` call); all
theorems carry enough fuel, so `.error .fuelOut` never arises there.  The
progress-indicator thread (lines 324-335, print-only) is not modelled. -/
def runM (env : Env) (useCache : Bool) : Nat → Req → St → Res × St
  | 0, _, st => (.text (.error .fuelOut), st)
  | fuel + 1, .call prompt, st =>
    if prompt.length > MAX_CHUNK_SIZE then
      match runM env useCache fuel (.chunkLoop 0 (chunk_text prompt MAX_CHUNK_SIZE)) st with
      | (.list rs, st2) => (.text (.ok (joinSep nn rs)), st2)
      | (.text e, st2) => (.text e, st2)
    else
      if useCache then
        let (cache, st1) := cacheRead1 st
        match lookupKV cache prompt with
        | some r => (.text (.ok r), st1)
        | none =>
          let (r, st2) := retryLoop env prompt useCache 20 0 0 st1
          (.text r, st2)
      else
        let (r, st2) := retryLoop env prompt useCache 20 0 0 st
        (.text r, st2)
  | _ + 1, .chunkLoop _ [], st => (.list [], st)
  | fuel + 1, .chunkLoop i (c :: rest), st =>
    let hit : Option (List Char) :=
      if useCache then lookupKV (readQuiet st.file) c else none
    match hit with
    | some t =>
      match runM env useCache fuel (.chunkLoop (i + 1) rest) st with
      | (.list rs, st2) => (.list (t :: rs), st2)
      | other => other
    | none =>
      let (r, st1) :=
        match runM env useCache fuel (.call c) st with
        | (.text r, st2) => (r, st2)
        | (.list _, st2) => ((.error .fuelOut : Except Err (List Char)), st2)
      let (t, st2) : List Char × St :=
        match r with
        | .ok t => (t, st1)
        | .error _ => (errMarker (i + 1), { st1 with evs := st1.evs ++ [Event.chunkFailed i] })
      let st3 : St :=
        if rest.isEmpty then st2
        else { st2 with
          rIdx := st2.rIdx + 1,
          evs := st2.evs ++ [Event.sleep (30 + 15 * env.urand st2.rIdx)] }
      match runM env useCache fuel (.chunkLoop (i + 1) rest) st3 with
      | (.list rs, st4) => (.list (t :: rs), st4)
      | other => other

/-- Top-level `call_llm(prompt, use_cache)` of `utils/call_llm.py`. -/
def call_llm (env : Env) (fuel : Nat) (prompt : List Char) (useCache : Bool)
    (st : St) : Except Err (List Char) × St :=
  match runM env useCache fuel (.call prompt) st with
  | (.text r, st2) => (r, st2)
  | (.list _, st2) => (.error .fuelOut, st2)

/-- The chunk loop `process_chunks_with_timeout(chunks, use_cache)` of
`utils/call_llm.py` (lines 313-371). -/
def process_chunks_with_timeout (env : Env) (fuel : Nat)
    (chunks : List (List Char)) (useCache : Bool) (st : St) :
    List (List Char) × St :=
  match runM env useCache fuel (.chunkLoop 0 chunks) st with
  | (.list rs, st2) => (rs, st2)
  | (.text _, st2) => ([], st2)

/-! ### Splitting and rejoining lemmas -/
theorem consHead_ne_nil (c : Char) (L : List (List Char)) : consHead c L ≠ [] := by
  cases L <;> simp [consHead]

theorem splitSep2_ne_nil (l : List Char) : splitSep2 l ≠ [] := by
  induction l using splitSep2.induct with
  | case1 => simp [splitSep2]
  | case2 c => simp [splitSep2]
  | case3 a b r h ih => simp [splitSep2, h]
  | case4 a b r h ih => simp [splitSep2, h, consHead_ne_nil]

theorem joinSep_cons (sep x : List Char) (L : List (List Char)) (h : L ≠ []) :
    joinSep sep (x :: L) = x ++ sep ++ joinSep sep L := by
  cases L with
  | nil => exact absurd rfl h
  | cons y t => rfl

theorem joinSep_consHead (sep : List Char) (a : Char) (L : List (List Char))
    (h : L ≠ []) : joinSep sep (consHead a L) = a :: joinSep sep L := by
  cases L with
  | nil => exact absurd rfl h
  | cons y t =>
    cases t with
    | nil => rfl
    | cons z t2 => simp [consHead, joinSep]

theorem joinSep_splitSep2 (l : List Char) : joinSep nn (splitSep2 l) = l := by
  induction l using splitSep2.induct with
  | case1 => rfl
  | case2 c => rfl
  | case3 a b r h ih =>
    obtain ⟨ha, hb⟩ := h
    subst ha; subst hb
    rw [show splitSep2 ('\n' :: '\n' :: r) = [] :: splitSep2 r from by
      rw [splitSep2]; simp]
    rw [joinSep_cons _ _ _ (splitSep2_ne_nil r), ih]
    rfl
  | case4 a b r h ih =>
    rw [splitSep2]
    rw [if_neg h]
    rw [joinSep_consHead _ _ _ (splitSep2_ne_nil (b :: r)), ih]

theorem splitSep2_no_newline (l : List Char) (h : '\n' ∉ l) : splitSep2 l = [l] := by
  induction l using splitSep2.induct with
  | case1 => rfl
  | case2 c => rfl
  | case3 a b r hab ih =>
    exact absurd (hab.1 ▸ List.mem_cons_self a (b :: r)) h
  | case4 a b r hab ih =>
    rw [splitSep2, if_neg hab, ih (fun hm => h (List.mem_cons_of_mem _ hm))]
    rfl

theorem splitSep2_append_sep (l1 l2 : List Char) (h : '\n' ∉ l1) :
    splitSep2 (l1 ++ nn ++ l2) = l1 :: splitSep2 l2 := by
  induction l1 with
  | nil =>
    show splitSep2 ('\n' :: '\n' :: l2) = [] :: splitSep2 l2
    rw [splitSep2]; simp
  | cons c r ih =>
    have hc : c ≠ '\n' := fun hh => h (hh ▸ List.mem_cons_self c r)
    have hr : '\n' ∉ r := fun hm => h (List.mem_cons_of_mem _ hm)
    have hne : r ++ nn ++ l2 ≠ [] := by simp [nn]
    cases hr2 : r ++ nn ++ l2 with
    | nil => exact absurd hr2 hne
    | cons d t =>
      show splitSep2 (c :: (r ++ nn ++ l2)) = (c :: r) :: splitSep2 l2
      rw [hr2, splitSep2, if_neg (by rintro ⟨h1, _⟩; exact hc h1), ← hr2,
        ih hr]
      rfl

/-- Interleave chunks with separator strings (chunk `i` is followed by
separator `i`; the final chunk has none). -/
def interleave : List (List Char) → List (List Char) → List Char
  | [], _ => []
  | [c], _ => c
  | c :: cs, [] => c ++ interleave cs []
  | c :: cs, s :: ss => c ++ s ++ interleave cs ss

/-- Interleave where every chunk (including the last) is followed by its
separator. -/
def interB : List (List Char) → List (List Char) → List Char
  | c :: cs, s :: ss => c ++ s ++ interB cs ss
  | _, _ => []

/-- The reconstruction property of claim C1: some choice of separator strings
recovers the original text from the chunks. -/
def CanReconstruct (T : List Char) (cs : List (List Char)) : Prop :=
  ∃ seps : List (List Char), seps.length + 1 = cs.length ∧ interleave cs seps = T

theorem interleave_last : ∀ (cs ss : List (List Char)) (c : List Char),
    ss.length = cs.length → interleave (cs ++ [c]) ss = interB cs ss ++ c := by
  intro cs
  induction cs with
  | nil =>
    intro ss c h
    rw [List.length_nil, List.length_eq_zero] at h
    subst h
    rfl
  | cons a cs ih =>
    intro ss c h
    cases ss with
    | nil => simp at h
    | cons s ss =>
      simp only [List.length_cons, Nat.add_right_cancel_iff] at h
      show interleave (a :: (cs ++ [c])) (s :: ss) = (a ++ s ++ interB cs ss) ++ c
      cases hcs : cs ++ [c] with
      | nil => simp at hcs
      | cons d t =>
        rw [show interleave (a :: d :: t) (s :: ss) = a ++ s ++ interleave (d :: t) ss from rfl,
          ← hcs, ih ss c h]
        simp [List.append_assoc]

theorem interB_last : ∀ (cs ss : List (List Char)) (c s : List Char),
    ss.length = cs.length →
    interB (cs ++ [c]) (ss ++ [s]) = interB cs ss ++ c ++ s := by
  intro cs
  induction cs with
  | nil =>
    intro ss c s h
    rw [List.length_nil, List.length_eq_zero] at h
    subst h
    simp [interB]
  | cons a cs ih =>
    intro ss c s h
    cases ss with
    | nil => simp at h
    | cons s0 ss =>
      simp only [List.length_cons, Nat.add_right_cancel_iff] at h
      show a ++ s0 ++ interB (cs ++ [c]) (ss ++ [s]) = (a ++ s0 ++ interB cs ss) ++ c ++ s
      rw [ih ss c s h]
      simp [List.append_assoc]

theorem joinSep_append_one (sep p : List Char) :
    ∀ (qs : List (List Char)), qs ≠ [] →
    joinSep sep (qs ++ [p]) = joinSep sep qs ++ sep ++ p := by
  intro qs
  induction qs with
  | nil => intro h; exact absurd rfl h
  | cons x t ih =>
    intro _
    cases t with
    | nil => rfl
    | cons y t2 =>
      show joinSep sep (x :: (y :: t2 ++ [p])) = (x ++ sep ++ joinSep sep (y :: t2)) ++ sep ++ p
      rw [joinSep_cons _ _ _ (by simp), ih (by simp)]
      simp [List.append_assoc]

/-- Invariant of the paragraph loop of `chunk_text` over the processed
paragraphs `qs`. -/
def ChunkInv (qs : List (List Char)) (st : ChunkSt) : Prop :=
  (qs = [] → st.chunks = [] ∧ st.cur = []) ∧
  (qs ≠ [] → st.cur ≠ []) ∧
  ∃ seps, seps.length = st.chunks.length ∧
    interB st.chunks seps ++ st.cur = joinSep nn qs

theorem chunkInv_flush (qs : List (List Char)) (st : ChunkSt) (p : List Char)
    (hp : p ≠ []) (h : ChunkInv qs st) :
    ChunkInv (qs ++ [p]) ⟨st.chunks ++ [st.cur], p⟩ := by
  obtain ⟨h0, h1, seps, hlen, hrec⟩ := h
  refine ⟨by simp, fun _ => hp, ?_⟩
  by_cases hq : qs = []
  · subst hq
    obtain ⟨hch, hcu⟩ := h0 rfl
    rw [hch, hcu]
    exact ⟨[[]], by simp, by simp [interB, joinSep]⟩
  · refine ⟨seps ++ [nn], by simp [hlen], ?_⟩
    rw [interB_last _ _ _ _ hlen, joinSep_append_one _ _ _ hq, ← hrec]

theorem chunkInv_append (qs : List (List Char)) (st : ChunkSt) (p : List Char)
    (hp : p ≠ []) (h : ChunkInv qs st) :
    ChunkInv (qs ++ [p]) ⟨st.chunks, if st.cur.isEmpty then p else st.cur ++ nn ++ p⟩ := by
  obtain ⟨h0, h1, seps, hlen, hrec⟩ := h
  by_cases hcur : st.cur = []
  · have hq : qs = [] := by
      by_contra hq
      exact (h1 hq) hcur
    subst hq
    obtain ⟨hch, -⟩ := h0 rfl
    rw [hcur, hch]
    refine ⟨by simp, fun _ => by simp [hp], ⟨[], by simp, ?_⟩⟩
    simp [interB, joinSep]
  · have hq : qs ≠ [] := by
      intro hq
      exact hcur (h0 hq).2
    have hie : st.cur.isEmpty = false := by
      cases hcu2 : st.cur with
      | nil => exact absurd hcu2 hcur
      | cons a t => rfl
    rw [hie]
    refine ⟨by simp, fun _ => by simp [nn], ⟨seps, hlen, ?_⟩⟩
    show interB st.chunks seps ++ (st.cur ++ nn ++ p) = joinSep nn (qs ++ [p])
    rw [joinSep_append_one _ _ _ hq, ← hrec]
    simp [List.append_assoc]

theorem chunkStepPara_inv (m : Nat) (p : List Char) (qs : List (List Char))
    (st : ChunkSt) (hp : p ≠ []) (hl : p.length ≤ m) (h : ChunkInv qs st) :
    ChunkInv (qs ++ [p]) (chunkStepPara m st p) := by
  rw [chunkStepPara]
  by_cases hc : st.cur.length + p.length + 2 > m
  · rw [if_pos hc]
    have hps : ¬ p.length > m := by omega
    by_cases h2 : 2 * st.cur.length > m
    · rw [if_pos h2]; exact chunkInv_flush qs st p hp h
    · rw [if_neg h2, if_neg hps]; exact chunkInv_flush qs st p hp h
  · rw [if_neg hc]; exact chunkInv_append qs st p hp h

theorem chunkFold_inv (m : Nat) :
    ∀ (ps qs : List (List Char)) (st : ChunkSt),
      (∀ p ∈ ps, p ≠ [] ∧ p.length ≤ m) → ChunkInv qs st →
      ChunkInv (qs ++ ps) (ps.foldl (chunkStepPara m) st) := by
  intro ps
  induction ps with
  | nil => intro qs st _ h; simpa using h
  | cons p ps ih =>
    intro qs st hps h
    have hstep := chunkStepPara_inv m p qs st (hps p (by simp)).1 (hps p (by simp)).2 h
    have := ih (qs ++ [p]) (chunkStepPara m st p)
      (fun q hq => hps q (List.mem_cons_of_mem _ hq)) hstep
    simpa [List.append_assoc] using this

theorem chunk_text_reconstruct (T : List Char) (m : Nat)
    (hp : ∀ p ∈ splitSep2 T, p ≠ [] ∧ p.length ≤ m) :
    CanReconstruct T (chunk_text T m) := by
  rw [chunk_text]
  by_cases hle : T.length ≤ m
  · rw [if_pos hle]
    exact ⟨[], rfl, rfl⟩
  · rw [if_neg hle]
    have hinit : ChunkInv [] ⟨[], []⟩ :=
      ⟨fun _ => ⟨rfl, rfl⟩, fun hq => absurd rfl hq, ⟨[], rfl, rfl⟩⟩
    have hinv := chunkFold_inv m (splitSep2 T) [] ⟨[], []⟩ hp hinit
    rw [List.nil_append] at hinv
    obtain ⟨g0, g1, seps, glen, grec⟩ := hinv
    have hcur : ((splitSep2 T).foldl (chunkStepPara m) ⟨[], []⟩).cur ≠ [] :=
      g1 (splitSep2_ne_nil T)
    have hie : ((splitSep2 T).foldl (chunkStepPara m) ⟨[], []⟩).cur.isEmpty = false := by
      cases hcu2 : ((splitSep2 T).foldl (chunkStepPara m) ⟨[], []⟩).cur with
      | nil => exact absurd hcu2 hcur
      | cons a t => rfl
    simp only [hie, Bool.false_eq_true, if_false]
    refine ⟨seps, by simp [glen], ?_⟩
    rw [interleave_last _ _ _ glen, grec, joinSep_splitSep2]

/-- Length of the longest single sentence of the input (sentences taken per
paragraph, as `chunk_text` does). -/
def maxSentLen (T : List Char) : Nat :=
  ((splitSep2 T).flatMap split_into_sentences).foldr (fun s n => max s.length n) 0

/-- A segment is acceptable if it fits the limit or is literally one paragraph
or one sentence of the input. -/
def SegOK (T : List Char) (m : Nat) (c : List Char) : Prop :=
  c.length ≤ m ∨ c ∈ splitSep2 T ∨ ∃ p ∈ splitSep2 T, c ∈ split_into_sentences p

theorem segOK_of_le {T : List Char} {m : Nat} {c : List Char}
    (h : c.length ≤ m) : SegOK T m c := Or.inl h

theorem sentStep_inv (T : List Char) (m : Nat) (p : List Char)
    (hp : p ∈ splitSep2 T) (s : List Char) (hs : s ∈ split_into_sentences p)
    (st : ChunkSt) (h : SegOK T m st.cur ∧ ∀ c ∈ st.chunks, SegOK T m c) :
    SegOK T m (chunkStepSentence m st s).cur ∧
      ∀ c ∈ (chunkStepSentence m st s).chunks, SegOK T m c := by
  obtain ⟨hcur, hall⟩ := h
  rw [chunkStepSentence]
  by_cases hc : st.cur.length + s.length + 1 > m
  · rw [if_pos hc]
    refine ⟨Or.inr (Or.inr ⟨p, hp, hs⟩), ?_⟩
    intro c hcm
    rcases List.mem_append.mp hcm with h1 | h2
    · exact hall c h1
    · rw [List.mem_singleton.mp h2]; exact hcur
  · rw [if_neg hc]
    refine ⟨?_, hall⟩
    by_cases he : st.cur.isEmpty
    · rw [if_pos he]
      refine segOK_of_le ?_
      show s.length ≤ m
      omega
    · rw [if_neg he]
      refine segOK_of_le ?_
      show (st.cur ++ [' '] ++ s).length ≤ m
      simp only [List.length_append, List.length_cons, List.length_nil]
      omega

theorem sentFold_inv (T : List Char) (m : Nat) (p : List Char)
    (hp : p ∈ splitSep2 T) :
    ∀ (ss : List (List Char)) (st : ChunkSt),
      (∀ s ∈ ss, s ∈ split_into_sentences p) →
      (SegOK T m st.cur ∧ ∀ c ∈ st.chunks, SegOK T m c) →
      SegOK T m (ss.foldl (chunkStepSentence m) st).cur ∧
        ∀ c ∈ (ss.foldl (chunkStepSentence m) st).chunks, SegOK T m c := by
  intro ss
  induction ss with
  | nil => intro st _ h; exact h
  | cons s ss ih =>
    intro st hss h
    exact ih (chunkStepSentence m st s)
      (fun q hq => hss q (List.mem_cons_of_mem _ hq))
      (sentStep_inv T m p hp s (hss s (by simp)) st h)

theorem paraStep_inv (T : List Char) (m : Nat) (p : List Char)
    (hp : p ∈ splitSep2 T) (st : ChunkSt)
    (h : SegOK T m st.cur ∧ ∀ c ∈ st.chunks, SegOK T m c) :
    SegOK T m (chunkStepPara m st p).cur ∧
      ∀ c ∈ (chunkStepPara m st p).chunks, SegOK T m c := by
  obtain ⟨hcur, hall⟩ := h
  have hflush : SegOK T m p ∧
      ∀ c ∈ st.chunks ++ [st.cur], SegOK T m c := by
    refine ⟨Or.inr (Or.inl hp), ?_⟩
    intro c hcm
    rcases List.mem_append.mp hcm with h1 | h2
    · exact hall c h1
    · rw [List.mem_singleton.mp h2]; exact hcur
  rw [chunkStepPara]
  by_cases hc : st.cur.length + p.length + 2 > m
  · rw [if_pos hc]
    by_cases h2 : 2 * st.cur.length > m
    · rw [if_pos h2]; exact hflush
    · rw [if_neg h2]
      by_cases h3 : p.length > m
      · rw [if_pos h3]
        exact sentFold_inv T m p hp (split_into_sentences p) st
          (fun s hs => hs) ⟨hcur, hall⟩
      · rw [if_neg h3]; exact hflush
  · rw [if_neg hc]
    refine ⟨?_, hall⟩
    by_cases he : st.cur.isEmpty
    · rw [if_pos he]
      refine segOK_of_le ?_
      show p.length ≤ m
      omega
    · rw [if_neg he]
      refine segOK_of_le ?_
      show (st.cur ++ nn ++ p).length ≤ m
      simp only [List.length_append, nn, List.length_cons, List.length_nil]
      omega

theorem paraFold_segInv (T : List Char) (m : Nat) :
    ∀ (ps : List (List Char)) (st : ChunkSt),
      (∀ p ∈ ps, p ∈ splitSep2 T) →
      (SegOK T m st.cur ∧ ∀ c ∈ st.chunks, SegOK T m c) →
      SegOK T m (ps.foldl (chunkStepPara m) st).cur ∧
        ∀ c ∈ (ps.foldl (chunkStepPara m) st).chunks, SegOK T m c := by
  intro ps
  induction ps with
  | nil => intro st _ h; exact h
  | cons p ps ih =>
    intro st hps h
    exact ih (chunkStepPara m st p)
      (fun q hq => hps q (List.mem_cons_of_mem _ hq))
      (paraStep_inv T m p (hps p (by simp)) st h)

theorem chunk_segment_bound (T : List Char) (m : Nat) (c : List Char)
    (hc : c ∈ chunk_text T m) : SegOK T m c := by
  rw [chunk_text] at hc
  by_cases hle : T.length ≤ m
  · rw [if_pos hle] at hc
    rw [List.mem_singleton.mp hc]
    exact segOK_of_le hle
  · rw [if_neg hle] at hc
    have hinv := paraFold_segInv T m (splitSep2 T) ⟨[], []⟩
      (fun p hp => hp) ⟨segOK_of_le (by simp), by simp⟩
    by_cases he : ((splitSep2 T).foldl (chunkStepPara m) ⟨[], []⟩).cur.isEmpty
    · rw [if_pos he] at hc
      exact hinv.2 c hc
    · rw [if_neg he] at hc
      rcases List.mem_append.mp hc with h1 | h2
      · exact hinv.2 c h1
      · rw [List.mem_singleton.mp h2]; exact hinv.1


/-! ### Interpreter trace lemmas -/

def isRemoteEvt : Event → Bool
  | .remote _ => true
  | _ => false

def countRemote (evs : List Event) : Nat := (evs.filter isRemoteEvt).length

def isChunkFailEvt : Event → Bool
  | .chunkFailed _ => true
  | _ => false

def countCF (evs : List Event) : Nat := (evs.filter isChunkFailEvt).length

def isCacheEvt : Event → Bool
  | .cacheStore => true
  | .warn => true
  | _ => false

def countCacheEvt (evs : List Event) : Nat := (evs.filter isCacheEvt).length

theorem countRemote_append (a b : List Event) :
    countRemote (a ++ b) = countRemote a + countRemote b := by
  simp [countRemote]

theorem countCF_append (a b : List Event) :
    countCF (a ++ b) = countCF a + countCF b := by
  simp [countCF]

theorem countCacheEvt_append (a b : List Event) :
    countCacheEvt (a ++ b) = countCacheEvt a + countCacheEvt b := by
  simp [countCacheEvt]

/-- The retry loop only ever appends to the event trace; the appended events,
the result, and all other state components do not depend on the trace already
present. -/
theorem retryLoop_shift (env : Env) (p : List Char) (u : Bool) :
    ∀ (k rc ce : Nat) (f : FileSt) (oi ri : Nat) (E : List Event)
      (r : Except Err (List Char)) (s : St),
      retryLoop env p u k rc ce ⟨f, oi, ri, []⟩ = (r, s) →
      retryLoop env p u k rc ce ⟨f, oi, ri, E⟩
        = (r, ⟨s.file, s.oIdx, s.rIdx, E ++ s.evs⟩) := by
  intro k
  induction k with
  | zero =>
    intro rc ce f oi ri E r s h
    rw [retryLoop] at h ⊢
    obtain ⟨h1, h2⟩ := Prod.mk.injEq .. ▸ h
    cases h
    simp
  | succ n ih =>
    intro rc ce f oi ri E r s h
    rw [retryLoop] at h ⊢
    cases horc : env.oracle oi with
    | ok t =>
      rw [horc] at h
      simp only at h ⊢
      cases u
      all_goals
        simp only [Bool.false_eq_true, if_false, if_true] at h ⊢
        rw [Prod.mk.injEq] at h
        obtain ⟨hr, hs⟩ := h
        subst hr
        subst hs
        simp
    | fail m =>
      rw [horc] at h
      simp only at h ⊢
      rcases hrec : retryLoop env p u n (rc + 1)
          (classifyWait m (rc + 1) ce (env.urand ri) (env.urand (ri + 1))).connErrs
          ⟨f, oi + 1,
           ri + (classifyWait m (rc + 1) ce (env.urand ri) (env.urand (ri + 1))).draws,
           []⟩ with ⟨r0, s0⟩
      rw [ih _ _ _ _ _ _ _ _ hrec] at h
      rw [ih _ _ _ _ _ _ _ _ hrec]
      obtain ⟨hr, hs⟩ := Prod.mk.injEq .. ▸ h
      subst hr
      subst hs
      simp [List.append_assoc]

theorem retryLoop_evs_ext (env : Env) (p : List Char) (u : Bool)
    (k rc ce : Nat) (st : St) :
    ∃ D, (retryLoop env p u k rc ce st).2.evs = st.evs ++ D := by
  rcases st with ⟨f, oi, ri, E⟩
  rcases h0 : retryLoop env p u k rc ce ⟨f, oi, ri, []⟩ with ⟨r, s⟩
  rw [retryLoop_shift env p u k rc ce f oi ri E r s h0]
  exact ⟨s.evs, rfl⟩

theorem retryLoop_false_file (env : Env) (p : List Char) :
    ∀ (k rc ce : Nat) (st : St),
      (retryLoop env p false k rc ce st).2.file = st.file ∧
      countCacheEvt (retryLoop env p false k rc ce st).2.evs = countCacheEvt st.evs := by
  intro k
  induction k with
  | zero => intro rc ce st; rw [retryLoop]; exact ⟨rfl, rfl⟩
  | succ n ih =>
    intro rc ce st
    rw [retryLoop]
    cases horc : env.oracle st.oIdx with
    | ok t =>
      simp only [Bool.false_eq_true, if_false]
      refine ⟨by simp, by simp [countCacheEvt_append, countCacheEvt, isCacheEvt]⟩
    | fail m =>
      simp only
      refine ⟨((ih _ _ _).1.trans rfl), ?_⟩
      rw [(ih _ _ _).2]
      rcases (classifyWait m (rc + 1) ce (env.urand st.rIdx) (env.urand (st.rIdx + 1))).cooldown with _ | t <;>
        simp [countCacheEvt_append, countCacheEvt, isCacheEvt]

theorem retryLoop_ok_facts (env : Env) (p : List Char) (u : Bool) :
    ∀ (k rc ce : Nat) (st : St) (t : List Char) (s : St),
      retryLoop env p u k rc ce st = (.ok t, s) →
      (∃ j, env.oracle j = .ok t) ∧
      (u = true → s.file = .valid (insertKV (readQuiet st.file) p t)) ∧
      (u = false → s.file = st.file) := by
  intro k
  induction k with
  | zero =>
    intro rc ce st t s h
    rw [retryLoop] at h
    exact absurd (congrArg Prod.fst h) (by simp)
  | succ n ih =>
    intro rc ce st t s h
    rw [retryLoop] at h
    cases horc : env.oracle st.oIdx with
    | ok t2 =>
      rw [horc] at h
      simp only at h
      cases u
      all_goals
        simp only [Bool.false_eq_true, if_false, if_true] at h
        rw [Prod.mk.injEq] at h
        obtain ⟨hr, hs⟩ := h
        cases hr
        subst hs
        exact ⟨⟨st.oIdx, horc⟩, by simp, by simp⟩
    | fail m =>
      rw [horc] at h
      simp only at h
      obtain ⟨he, hu1, hu0⟩ := ih _ _ _ _ _ h
      exact ⟨he, hu1, hu0⟩

theorem countRemote_cooldown (o : Option ℚ) :
    countRemote (match o with | some t => [Event.sleep t] | none => []) = 0 := by
  rcases o with _ | t <;> simp [countRemote, isRemoteEvt]

theorem countCF_cooldown (o : Option ℚ) :
    countCF (match o with | some t => [Event.sleep t] | none => []) = 0 := by
  rcases o with _ | t <;> simp [countCF, isChunkFailEvt]

theorem countCacheEvt_cooldown (o : Option ℚ) :
    countCacheEvt (match o with | some t => [Event.sleep t] | none => []) = 0 := by
  rcases o with _ | t <;> simp [countCacheEvt, isCacheEvt]

theorem retryLoop_fail_all (env : Env) (p : List Char) (u : Bool) :
    ∀ (k rc ce : Nat) (st : St),
      (∀ j, j < k → ∀ t, env.oracle (st.oIdx + j) ≠ .ok t) →
      ∃ s, retryLoop env p u k rc ce st = (.error .retriesExhausted, s) ∧
        s.file = st.file ∧ s.oIdx = st.oIdx + k ∧
        countRemote s.evs = countRemote st.evs + k ∧
        countCF s.evs = countCF st.evs ∧
        countCacheEvt s.evs = countCacheEvt st.evs := by
  intro k
  induction k with
  | zero =>
    intro rc ce st _
    rw [retryLoop]
    exact ⟨_, rfl, rfl, rfl, by simp, rfl, rfl⟩
  | succ n ih =>
    intro rc ce st hfail
    rw [retryLoop]
    cases horc : env.oracle st.oIdx with
    | ok t => exact absurd horc (by simpa using hfail 0 (by omega) t)
    | fail m =>
      simp only
      generalize hw : classifyWait m (rc + 1) ce (env.urand st.rIdx) (env.urand (st.rIdx + 1)) = w
      obtain ⟨s, hs, hfile, hoi, hrem, hcf, hcev⟩ := ih (rc + 1) w.connErrs
        ⟨st.file, st.oIdx + 1, st.rIdx + w.draws,
         (st.evs ++ [Event.remote p]) ++
           (match w.cooldown with | some t => [Event.sleep t] | none => []) ++
           [Event.sleep w.wait]⟩
        (by
          intro j hj t ht
          have heq : st.oIdx + (1 + j) = st.oIdx + 1 + j := by omega
          have := hfail (1 + j) (by omega) t
          rw [heq] at this
          exact this ht)
      dsimp only at hfile hoi hrem hcf hcev
      have hc1 : countRemote ((st.evs ++ [Event.remote p]) ++
          (match w.cooldown with | some t => [Event.sleep t] | none => []) ++
          [Event.sleep w.wait]) = countRemote st.evs + 1 := by
        rw [countRemote_append, countRemote_append, countRemote_append,
          countRemote_cooldown]
        simp [countRemote, isRemoteEvt]
      have hc2 : countCF ((st.evs ++ [Event.remote p]) ++
          (match w.cooldown with | some t => [Event.sleep t] | none => []) ++
          [Event.sleep w.wait]) = countCF st.evs := by
        rw [countCF_append, countCF_append, countCF_append, countCF_cooldown]
        simp [countCF, isChunkFailEvt]
      have hc3 : countCacheEvt ((st.evs ++ [Event.remote p]) ++
          (match w.cooldown with | some t => [Event.sleep t] | none => []) ++
          [Event.sleep w.wait]) = countCacheEvt st.evs := by
        rw [countCacheEvt_append, countCacheEvt_append, countCacheEvt_append,
          countCacheEvt_cooldown]
        simp [countCacheEvt, isCacheEvt]
      refine ⟨s, hs, hfile, by rw [hoi]; omega, by rw [hrem, hc1]; omega,
        by rw [hcf, hc2], by rw [hcev, hc3]⟩

theorem lookup_insert_self (c : List (List Char × List Char)) (k v : List Char) :
    lookupKV (insertKV c k v) k = some v := by
  induction c with
  | nil => simp [insertKV, lookupKV]
  | cons p t ih =>
    rcases p with ⟨k2, w⟩
    rw [insertKV]
    by_cases h : k2 = k
    · rw [if_pos h, lookupKV, if_pos h]
    · rw [if_neg h, lookupKV, if_neg h, ih]

theorem lookup_insert_ne (c : List (List Char × List Char)) (k v q : List Char)
    (h : q ≠ k) : lookupKV (insertKV c k v) q = lookupKV c q := by
  induction c with
  | nil => simp [insertKV, lookupKV, Ne.symm h]
  | cons p t ih =>
    rcases p with ⟨k2, w⟩
    rw [insertKV]
    by_cases h2 : k2 = k
    · subst h2
      simp [lookupKV, Ne.symm h]
    · rw [if_neg h2]
      by_cases h3 : k2 = q
      · simp [lookupKV, h3]
      · simp [lookupKV, h3, ih]

/-- During the retry loop, a cached binding of a key that is not overwritten
survives; the prompt itself is only written on success, and only when it was a
cache miss, so a present binding for any key survives under the miss
hypothesis. -/
theorem retryLoop_cache_mono (env : Env) (p : List Char) (u : Bool) :
    ∀ (k rc ce : Nat) (st : St) (q v : List Char),
      lookupKV (readQuiet st.file) p = none →
      lookupKV (readQuiet st.file) q = some v →
      lookupKV (readQuiet (retryLoop env p u k rc ce st).2.file) q = some v := by
  intro k
  induction k with
  | zero => intro rc ce st q v _ hq; rw [retryLoop]; exact hq
  | succ n ih =>
    intro rc ce st q v hp hq
    rw [retryLoop]
    cases horc : env.oracle st.oIdx with
    | ok t =>
      simp only
      cases u
      · simpa using hq
      · simp only [if_true]
        have hqp : q ≠ p := fun hh => by rw [hh] at hq; rw [hq] at hp; cases hp
        show lookupKV (readQuiet (FileSt.valid (insertKV (readQuiet st.file) p t))) q = some v
        rw [readQuiet, lookup_insert_ne _ _ _ _ hqp]
        exact hq
    | fail m =>
      simp only
      exact ih _ _ _ _ _ hp hq

theorem cacheRead1_evs (st : St) :
    ∃ D, (cacheRead1 st).2.evs = st.evs ++ D ∧ (cacheRead1 st).2.file = st.file ∧
      (cacheRead1 st).2.oIdx = st.oIdx ∧ (cacheRead1 st).2.rIdx = st.rIdx ∧
      (cacheRead1 st).1 = readQuiet st.file := by
  rcases hf : st.file with _ | _ | c <;>
    simp [cacheRead1, hf, readQuiet]

/-- Every step of the interpreter only appends to the event trace. -/
theorem runM_evs_ext (env : Env) (u : Bool) :
    ∀ (fuel : Nat) (req : Req) (st : St),
      ∃ D, (runM env u fuel req st).2.evs = st.evs ++ D := by
  intro fuel
  induction fuel with
  | zero => intro req st; exact ⟨[], by simp [runM]⟩
  | succ f ih =>
    intro req st
    match req with
    | .call p =>
      rw [runM]
      by_cases hbig : p.length > MAX_CHUNK_SIZE
      · rw [if_pos hbig]
        rcases hrun : runM env u f (.chunkLoop 0 (chunk_text p MAX_CHUNK_SIZE)) st with ⟨res, st2⟩
        obtain ⟨D, hD⟩ := ih (.chunkLoop 0 (chunk_text p MAX_CHUNK_SIZE)) st
        rw [hrun] at hD
        cases res <;> exact ⟨D, hD⟩
      · rw [if_neg hbig]
        cases u
        · simp only [Bool.false_eq_true, if_false]
          rcases hrl : retryLoop env p false 20 0 0 st with ⟨r, s⟩
          obtain ⟨D, hD⟩ := retryLoop_evs_ext env p false 20 0 0 st
          rw [hrl] at hD
          exact ⟨D, hD⟩
        · simp only [if_true]
          obtain ⟨D1, hD1, hfi, hoi, hri, hca⟩ := cacheRead1_evs st
          rcases hcr : cacheRead1 st with ⟨cache, st1⟩
          rw [hcr] at hD1 hfi hoi hri hca
          cases hlk : lookupKV cache p with
          | some r => exact ⟨D1, hD1⟩
          | none =>
            rcases hrl : retryLoop env p true 20 0 0 st1 with ⟨r, s⟩
            obtain ⟨D2, hD2⟩ := retryLoop_evs_ext env p true 20 0 0 st1
            rw [hrl] at hD2
            exact ⟨D1 ++ D2, by
              show s.evs = st.evs ++ (D1 ++ D2)
              rw [hD2, hD1, List.append_assoc]⟩
    | .chunkLoop i cs =>
      match cs with
      | [] => exact ⟨[], by simp [runM]⟩
      | c :: rest =>
        rw [runM]
        cases hhit : (if u then lookupKV (readQuiet st.file) c else none) with
        | some t =>
          rcases hrun : runM env u f (.chunkLoop (i + 1) rest) st with ⟨res, st2⟩
          obtain ⟨D, hD⟩ := ih (.chunkLoop (i + 1) rest) st
          rw [hrun] at hD
          cases res <;> exact ⟨D, hD⟩
        | none =>
          rcases hrun1 : runM env u f (.call c) st with ⟨res1, st1⟩
          obtain ⟨D1, hD1⟩ := ih (.call c) st
          rw [hrun1] at hD1
          have hcore : ∀ (x : List Char) (st3 : St), (∃ D3, st3.evs = st.evs ++ D3) →
              ∃ D, (match runM env u f (.chunkLoop (i + 1) rest) st3 with
                | (Res.list rs, st4) => (Res.list (x :: rs), st4)
                | other => other).2.evs = st.evs ++ D := by
            intro x st3 h3
            obtain ⟨D3, hD3⟩ := h3
            rcases hrun2 : runM env u f (.chunkLoop (i + 1) rest) st3 with ⟨res2, st4⟩
            obtain ⟨D4, hD4⟩ := ih (.chunkLoop (i + 1) rest) st3
            rw [hrun2] at hD4
            cases res2 <;>
              exact ⟨D3 ++ D4, by
                show st4.evs = st.evs ++ (D3 ++ D4)
                rw [hD4, hD3, List.append_assoc]⟩
          have hfin2 : ∀ (x : List Char) (stm : St), (∃ Dm, stm.evs = st.evs ++ Dm) →
              ∃ D, (match runM env u f (.chunkLoop (i + 1) rest) (if rest.isEmpty then stm else { stm with rIdx := stm.rIdx + 1, evs := stm.evs ++ [Event.sleep (30 + 15 * env.urand stm.rIdx)] }) with
                | (Res.list rs, st4) => (Res.list (x :: rs), st4)
                | other => other).2.evs = st.evs ++ D := by
            intro x stm hpr
            obtain ⟨Dm, hDm⟩ := hpr
            by_cases hre : rest.isEmpty
            · rw [if_pos hre]
              exact hcore x stm ⟨Dm, hDm⟩
            · rw [if_neg hre]
              refine hcore x _ ⟨Dm ++ [Event.sleep (30 + 15 * env.urand stm.rIdx)], ?_⟩
              show stm.evs ++ _ = _
              rw [hDm, List.append_assoc]
          cases res1 with
          | text r =>
            cases r with
            | ok t => exact hfin2 t st1 ⟨D1, hD1⟩
            | error e =>
              refine hfin2 (errMarker (i + 1))
                { st1 with evs := st1.evs ++ [Event.chunkFailed i] }
                ⟨D1 ++ [Event.chunkFailed i], ?_⟩
              show st1.evs ++ [Event.chunkFailed i] = _
              rw [show st1.evs = st.evs ++ D1 from hD1, List.append_assoc]
          | list rs =>
            refine hfin2 (errMarker (i + 1))
              { st1 with evs := st1.evs ++ [Event.chunkFailed i] }
              ⟨D1 ++ [Event.chunkFailed i], ?_⟩
            show st1.evs ++ [Event.chunkFailed i] = _
            rw [show st1.evs = st.evs ++ D1 from hD1, List.append_assoc]

/-- With `use_cache=False` the interpreter never touches the cache file and
never emits a cache event (read, write, or warning). -/
theorem runM_false_frame (env : Env) :
    ∀ (fuel : Nat) (req : Req) (st : St),
      (runM env false fuel req st).2.file = st.file ∧
      countCacheEvt (runM env false fuel req st).2.evs = countCacheEvt st.evs := by
  intro fuel
  induction fuel with
  | zero => intro req st; simp [runM]
  | succ f ih =>
    intro req st
    match req with
    | .call p =>
      rw [runM]
      by_cases hbig : p.length > MAX_CHUNK_SIZE
      · rw [if_pos hbig]
        rcases hrun : runM env false f (.chunkLoop 0 (chunk_text p MAX_CHUNK_SIZE)) st with ⟨res, st2⟩
        have h := ih (.chunkLoop 0 (chunk_text p MAX_CHUNK_SIZE)) st
        rw [hrun] at h
        cases res <;> exact h
      · rw [if_neg hbig]
        simp only [Bool.false_eq_true, if_false]
        rcases hrl : retryLoop env p false 20 0 0 st with ⟨r, s⟩
        have h := retryLoop_false_file env p 20 0 0 st
        rw [hrl] at h
        exact h
    | .chunkLoop i cs =>
      match cs with
      | [] => exact ⟨by simp [runM], by simp [runM]⟩
      | c :: rest =>
        rw [runM]
        simp only [Bool.false_eq_true, if_false]
        rcases hrun1 : runM env false f (.call c) st with ⟨res1, st1⟩
        have h1 := ih (.call c) st
        rw [hrun1] at h1
        have hcore : ∀ (x : List Char) (st3 : St),
            st3.file = st.file → countCacheEvt st3.evs = countCacheEvt st.evs →
            ((match runM env false f (.chunkLoop (i + 1) rest) st3 with
              | (Res.list rs, st4) => (Res.list (x :: rs), st4)
              | other => other).2.file = st.file ∧
             countCacheEvt (match runM env false f (.chunkLoop (i + 1) rest) st3 with
              | (Res.list rs, st4) => (Res.list (x :: rs), st4)
              | other => other).2.evs = countCacheEvt st.evs) := by
          intro x st3 h3f h3c
          rcases hrun2 : runM env false f (.chunkLoop (i + 1) rest) st3 with ⟨res2, st4⟩
          have h4 := ih (.chunkLoop (i + 1) rest) st3
          rw [hrun2] at h4
          cases res2 <;> exact ⟨h4.1.trans h3f, h4.2.trans h3c⟩
        have hfin2 : ∀ (x : List Char) (stm : St),
            stm.file = st.file → countCacheEvt stm.evs = countCacheEvt st.evs →
            ((match runM env false f (.chunkLoop (i + 1) rest) (if rest.isEmpty then stm else { stm with rIdx := stm.rIdx + 1, evs := stm.evs ++ [Event.sleep (30 + 15 * env.urand stm.rIdx)] }) with
              | (Res.list rs, st4) => (Res.list (x :: rs), st4)
              | other => other).2.file = st.file ∧
             countCacheEvt (match runM env false f (.chunkLoop (i + 1) rest) (if rest.isEmpty then stm else { stm with rIdx := stm.rIdx + 1, evs := stm.evs ++ [Event.sleep (30 + 15 * env.urand stm.rIdx)] }) with
              | (Res.list rs, st4) => (Res.list (x :: rs), st4)
              | other => other).2.evs = countCacheEvt st.evs) := by
          intro x stm hmf hmc
          by_cases hre : rest.isEmpty
          · rw [if_pos hre]
            exact hcore x stm hmf hmc
          · rw [if_neg hre]
            refine hcore x _ hmf ?_
            show countCacheEvt (stm.evs ++ [Event.sleep (30 + 15 * env.urand stm.rIdx)]) = _
            rw [countCacheEvt_append, hmc]
            simp [countCacheEvt, isCacheEvt]
        cases res1 with
        | text r =>
          cases r with
          | ok t => exact hfin2 t st1 h1.1 h1.2
          | error e =>
            refine hfin2 (errMarker (i + 1))
              { st1 with evs := st1.evs ++ [Event.chunkFailed i] } h1.1 ?_
            show countCacheEvt (st1.evs ++ [Event.chunkFailed i]) = _
            rw [countCacheEvt_append, h1.2]
            simp [countCacheEvt, isCacheEvt]
        | list rs =>
          refine hfin2 (errMarker (i + 1))
            { st1 with evs := st1.evs ++ [Event.chunkFailed i] } h1.1 ?_
          show countCacheEvt (st1.evs ++ [Event.chunkFailed i]) = _
          rw [countCacheEvt_append, h1.2]
          simp [countCacheEvt, isCacheEvt]

/-- With `use_cache=True`, a cached binding, once present, survives the whole
run: cache writes only ever add bindings for keys that were cache misses. -/
theorem runM_cache_mono (env : Env) :
    ∀ (fuel : Nat) (req : Req) (st : St) (q v : List Char),
      lookupKV (readQuiet st.file) q = some v →
      lookupKV (readQuiet (runM env true fuel req st).2.file) q = some v := by
  intro fuel
  induction fuel with
  | zero => intro req st q v h; simpa [runM] using h
  | succ f ih =>
    intro req st q v hq
    match req with
    | .call p =>
      rw [runM]
      by_cases hbig : p.length > MAX_CHUNK_SIZE
      · rw [if_pos hbig]
        rcases hrun : runM env true f (.chunkLoop 0 (chunk_text p MAX_CHUNK_SIZE)) st with ⟨res, st2⟩
        have h := ih (.chunkLoop 0 (chunk_text p MAX_CHUNK_SIZE)) st q v hq
        rw [hrun] at h
        cases res <;> exact h
      · rw [if_neg hbig]
        simp only [if_true]
        obtain ⟨D1, hD1, hfi, hoi, hri, hca⟩ := cacheRead1_evs st
        rcases hcr : cacheRead1 st with ⟨cache, st1⟩
        rw [hcr] at hD1 hfi hoi hri hca
        cases hlk : lookupKV cache p with
        | some r =>
          show lookupKV (readQuiet st1.file) q = some v
          rw [hfi]
          exact hq
        | none =>
          rcases hrl : retryLoop env p true 20 0 0 st1 with ⟨r, s⟩
          have h := retryLoop_cache_mono env p true 20 0 0 st1 q v
            (by rw [hfi, ← hca]; exact hlk) (by rw [hfi]; exact hq)
          rw [hrl] at h
          exact h
    | .chunkLoop i cs =>
      match cs with
      | [] => simpa [runM] using hq
      | c :: rest =>
        rw [runM]
        cases hhit : (if (true : Bool) then lookupKV (readQuiet st.file) c else none) with
        | some t =>
          rcases hrun : runM env true f (.chunkLoop (i + 1) rest) st with ⟨res, st2⟩
          have h := ih (.chunkLoop (i + 1) rest) st q v hq
          rw [hrun] at h
          cases res <;> exact h
        | none =>
          rcases hrun1 : runM env true f (.call c) st with ⟨res1, st1⟩
          have h1 := ih (.call c) st q v hq
          rw [hrun1] at h1
          have hcore : ∀ (x : List Char) (st3 : St),
              lookupKV (readQuiet st3.file) q = some v →
              lookupKV (readQuiet (match runM env true f (.chunkLoop (i + 1) rest) st3 with
                | (Res.list rs, st4) => (Res.list (x :: rs), st4)
                | other => other).2.file) q = some v := by
            intro x st3 h3
            rcases hrun2 : runM env true f (.chunkLoop (i + 1) rest) st3 with ⟨res2, st4⟩
            have h4 := ih (.chunkLoop (i + 1) rest) st3 q v h3
            rw [hrun2] at h4
            cases res2 <;> exact h4
          have hfin2 : ∀ (x : List Char) (stm : St),
              lookupKV (readQuiet stm.file) q = some v →
              lookupKV (readQuiet (match runM env true f (.chunkLoop (i + 1) rest) (if rest.isEmpty then stm else { stm with rIdx := stm.rIdx + 1, evs := stm.evs ++ [Event.sleep (30 + 15 * env.urand stm.rIdx)] }) with
                | (Res.list rs, st4) => (Res.list (x :: rs), st4)
                | other => other).2.file) q = some v := by
            intro x stm hm
            by_cases hre : rest.isEmpty
            · rw [if_pos hre]; exact hcore x stm hm
            · rw [if_neg hre]; exact hcore x _ hm
          cases res1 with
          | text r =>
            cases r with
            | ok t => exact hfin2 t st1 h1
            | error e =>
              exact hfin2 (errMarker (i + 1))
                { st1 with evs := st1.evs ++ [Event.chunkFailed i] } h1
          | list rs =>
            exact hfin2 (errMarker (i + 1))
              { st1 with evs := st1.evs ++ [Event.chunkFailed i] } h1

theorem runM_call_text (env : Env) (u : Bool) (fuel : Nat) (p : List Char) (st : St) :
    ∃ r st2, runM env u fuel (.call p) st = (.text r, st2) := by
  cases fuel with
  | zero => exact ⟨.error .fuelOut, st, rfl⟩
  | succ f =>
    rw [runM]
    by_cases hbig : p.length > MAX_CHUNK_SIZE
    · rw [if_pos hbig]
      rcases hrun : runM env u f (.chunkLoop 0 (chunk_text p MAX_CHUNK_SIZE)) st with ⟨res, st2⟩
      cases res with
      | list rs => exact ⟨.ok (joinSep nn rs), st2, rfl⟩
      | text e => exact ⟨e, st2, rfl⟩
    · rw [if_neg hbig]
      cases u
      · simp only [Bool.false_eq_true, if_false]
        rcases hrl : retryLoop env p false 20 0 0 st with ⟨r, s⟩
        exact ⟨r, s, rfl⟩
      · simp only [if_true]
        rcases hcr : cacheRead1 st with ⟨cache, st1⟩
        cases hlk : lookupKV cache p with
        | some r => exact ⟨.ok r, st1, rfl⟩
        | none =>
          rcases hrl : retryLoop env p true 20 0 0 st1 with ⟨r, s⟩
          exact ⟨r, s, rfl⟩

/-- With caching off, a successful `call_llm` response always comes from the
remote oracle. -/
theorem runM_call_ok_oracle (env : Env) :
    ∀ (fuel : Nat) (p : List Char) (st : St) (t : List Char) (st2 : St),
      p.length ≤ MAX_CHUNK_SIZE →
      runM env false fuel (.call p) st = (.text (.ok t), st2) →
      ∃ k, env.oracle k = .ok t := by
  intro fuel p st t st2 hlen h
  cases fuel with
  | zero =>
    rw [runM] at h
    exact absurd (congrArg Prod.fst h) (by simp)
  | succ f =>
    rw [runM, if_neg (by omega)] at h
    simp only [Bool.false_eq_true, if_false] at h
    rcases hrl : retryLoop env p false 20 0 0 st with ⟨r, s⟩
    rw [hrl] at h
    cases r with
    | ok t2 =>
      have ht : t2 = t := by
        have := congrArg Prod.fst h
        simpa using this
      subst ht
      exact (retryLoop_ok_facts env p false 20 0 0 st t2 s hrl).1
    | error e => exact absurd (congrArg Prod.fst h) (by simp)

/-- The chunk loop with caching off: it always returns one result per chunk,
in order; a slot is either the error marker for that chunk (with the chunk
failure recorded in the trace) or a response obtained from the oracle. -/
theorem chunkLoop_false (env : Env) :
    ∀ (cs : List (List Char)) (i fuel : Nat) (st : St),
      (∀ c ∈ cs, c.length ≤ MAX_CHUNK_SIZE) → cs.length < fuel →
      ∃ rs st2, runM env false fuel (.chunkLoop i cs) st = (.list rs, st2) ∧
        rs.length = cs.length ∧
        ∀ j (hr : j < rs.length),
          (rs.get ⟨j, hr⟩ = errMarker (i + j + 1) ∧
            Event.chunkFailed (i + j) ∈ st2.evs) ∨
          (∃ k, env.oracle k = .ok (rs.get ⟨j, hr⟩)) := by
  intro cs
  induction cs with
  | nil =>
    intro i fuel st _ hf
    obtain ⟨f, rfl⟩ : ∃ f, fuel = f + 1 := ⟨fuel - 1, by omega⟩
    exact ⟨[], st, by rw [runM], rfl, fun j hr => absurd hr (by simp)⟩
  | cons c rest ih =>
    intro i fuel st hcs hf
    obtain ⟨f, rfl⟩ : ∃ f, fuel = f + 1 := ⟨fuel - 1, by omega⟩
    rw [runM]
    simp only [Bool.false_eq_true, if_false]
    obtain ⟨r1, st1, hrun1⟩ := runM_call_text env false f c st
    rw [hrun1]
    have hrest : rest.length < f := by simp at hf; omega
    have hcs2 : ∀ q ∈ rest, q.length ≤ MAX_CHUNK_SIZE :=
      fun q hq => hcs q (List.mem_cons_of_mem _ hq)
    cases r1 with
    | ok t =>
      have hok : ∃ k, env.oracle k = .ok t :=
        runM_call_ok_oracle env f c st t st1 (hcs c (by simp)) hrun1
      by_cases hre : rest.isEmpty
      · rw [if_pos hre]
        obtain ⟨rs2, st3, hrun2, hlen2, hprop2⟩ := ih (i + 1) f st1 hcs2 hrest
        rw [hrun2]
        refine ⟨t :: rs2, st3, rfl, by simp [hlen2], ?_⟩
        intro j hr
        cases j with
        | zero => exact Or.inr hok
        | succ n =>
          have hn : n < rs2.length := by simpa using hr
          have := hprop2 n hn
          rcases this with ⟨hm, hev⟩ | hok2
          · exact Or.inl ⟨by simpa [show i + 1 + n + 1 = i + (n + 1) + 1 by omega] using hm,
              by simpa [show i + 1 + n = i + (n + 1) by omega] using hev⟩
          · exact Or.inr (by simpa using hok2)
      · rw [if_neg hre]
        obtain ⟨rs2, st3, hrun2, hlen2, hprop2⟩ := ih (i + 1) f { st1 with rIdx := st1.rIdx + 1, evs := st1.evs ++ [Event.sleep (30 + 15 * env.urand st1.rIdx)] } hcs2 hrest
        rw [hrun2]
        refine ⟨t :: rs2, st3, rfl, by simp [hlen2], ?_⟩
        intro j hr
        cases j with
        | zero => exact Or.inr hok
        | succ n =>
          have hn : n < rs2.length := by simpa using hr
          rcases hprop2 n hn with ⟨hm, hev⟩ | hok2
          · exact Or.inl ⟨by simpa [show i + 1 + n + 1 = i + (n + 1) + 1 by omega] using hm,
              by simpa [show i + 1 + n = i + (n + 1) by omega] using hev⟩
          · exact Or.inr (by simpa using hok2)
    | error e =>
      have hmark : ∀ (st3 : St), Event.chunkFailed i ∈ st3.evs →
          ∀ (rs2 st4 : _), runM env false f (.chunkLoop (i + 1) rest) st3 = (.list rs2, st4) →
          Event.chunkFailed i ∈ st4.evs := by
        intro st3 hm rs2 st4 hrun2
        obtain ⟨D, hD⟩ := runM_evs_ext env false f (.chunkLoop (i + 1) rest) st3
        rw [hrun2] at hD
        simp only at hD
        rw [hD]
        exact List.mem_append_left _ hm
      by_cases hre : rest.isEmpty
      · rw [if_pos hre]
        obtain ⟨rs2, st3, hrun2, hlen2, hprop2⟩ := ih (i + 1) f
          { st1 with evs := st1.evs ++ [Event.chunkFailed i] } hcs2 hrest
        rw [hrun2]
        refine ⟨errMarker (i + 1) :: rs2, st3, rfl, by simp [hlen2], ?_⟩
        intro j hr
        cases j with
        | zero =>
          refine Or.inl ⟨by simp, ?_⟩
          exact hmark _ (by simp) rs2 st3 hrun2
        | succ n =>
          have hn : n < rs2.length := by simpa using hr
          rcases hprop2 n hn with ⟨hm, hev⟩ | hok2
          · exact Or.inl ⟨by simpa [show i + 1 + n + 1 = i + (n + 1) + 1 by omega] using hm,
              by simpa [show i + 1 + n = i + (n + 1) by omega] using hev⟩
          · exact Or.inr (by simpa using hok2)
      · rw [if_neg hre]
        obtain ⟨rs2, st3, hrun2, hlen2, hprop2⟩ := ih (i + 1) f { st1 with rIdx := st1.rIdx + 1, evs := (st1.evs ++ [Event.chunkFailed i]) ++ [Event.sleep (30 + 15 * env.urand st1.rIdx)] } hcs2 hrest
        rw [hrun2]
        refine ⟨errMarker (i + 1) :: rs2, st3, rfl, by simp [hlen2], ?_⟩
        intro j hr
        cases j with
        | zero =>
          refine Or.inl ⟨by simp, ?_⟩
          exact hmark _ (by simp) rs2 st3 hrun2
        | succ n =>
          have hn : n < rs2.length := by simpa using hr
          rcases hprop2 n hn with ⟨hm, hev⟩ | hok2
          · exact Or.inl ⟨by simpa [show i + 1 + n + 1 = i + (n + 1) + 1 by omega] using hm,
              by simpa [show i + 1 + n = i + (n + 1) by omega] using hev⟩
          · exact Or.inr (by simpa using hok2)

theorem runM_countCF_mono (env : Env) (u : Bool) (fuel : Nat) (req : Req) (st : St) :
    countCF st.evs ≤ countCF (runM env u fuel req st).2.evs := by
  obtain ⟨D, hD⟩ := runM_evs_ext env u fuel req st
  rw [hD, countCF_append]
  omega

/-- Direct mode with caching on: a returned response is in the cache file
afterwards (write-through on remote success, or it was the cache hit). -/
theorem runM_call_true_stores (env : Env) :
    ∀ (fuel : Nat) (p : List Char) (st : St) (r : List Char) (st1 : St),
      p.length ≤ MAX_CHUNK_SIZE →
      runM env true fuel (.call p) st = (.text (.ok r), st1) →
      lookupKV (readQuiet st1.file) p = some r := by
  intro fuel p st r st1 hlen h
  cases fuel with
  | zero =>
    rw [runM] at h
    exact absurd (congrArg Prod.fst h) (by simp)
  | succ f =>
    rw [runM, if_neg (by omega)] at h
    simp only [if_true] at h
    obtain ⟨D1, hD1, hfi, hoi, hri, hca⟩ := cacheRead1_evs st
    rcases hcr : cacheRead1 st with ⟨cache, st1x⟩
    rw [hcr] at hD1 hfi hoi hri hca h
    cases hlk : lookupKV cache p with
    | some r0 =>
      rw [hlk] at h
      obtain ⟨hr0, hst⟩ := Prod.mk.injEq .. ▸ h
      cases hst
      have : r0 = r := by
        have := congrArg (fun x => match x with
          | Res.text (Except.ok t) => t
          | _ => []) hr0
        simpa using this
      subst this
      rw [hfi, ← hca]
      exact hlk
    | none =>
      rw [hlk] at h
      rcases hrl : retryLoop env p true 20 0 0 st1x with ⟨r2, s⟩
      rw [hrl] at h
      cases r2 with
      | ok t =>
        have ht : t = r ∧ s = st1 := by
          obtain ⟨h1, h2⟩ := Prod.mk.injEq .. ▸ h
          refine ⟨?_, h2⟩
          have := congrArg (fun x => match x with
            | Res.text (Except.ok t) => t
            | _ => []) h1
          simpa using this
        obtain ⟨ht, hs⟩ := ht
        subst ht
        subst hs
        have := (retryLoop_ok_facts env p true 20 0 0 st1x t _ hrl).2.1 rfl
        rw [this, readQuiet, lookup_insert_self]
      | error e => exact absurd (congrArg Prod.fst h) (by simp)

/-- Direct mode with caching on: a cached prompt is answered from the cache,
with no state change at all. -/
theorem runM_call_true_hit (env2 : Env) (fuel : Nat) (p : List Char) (st : St)
    (r : List Char) (hl : lookupKV (readQuiet st.file) p = some r)
    (hlen : p.length ≤ MAX_CHUNK_SIZE) :
    runM env2 true (fuel + 1) (.call p) st = (.text (.ok r), st) := by
  rw [runM, if_neg (by omega)]
  simp only [if_true]
  rcases hf : st.file with _ | _ | c
  · rw [hf] at hl; simp [readQuiet, lookupKV] at hl
  · rw [hf] at hl; simp [readQuiet, lookupKV] at hl
  · have hc : cacheRead1 st = (c, st) := by rw [cacheRead1, hf]
    rw [hc]
    have : lookupKV c p = some r := by rw [hf] at hl; exact hl
    rw [this]

/-- First chunked pass with caching on and no chunk failures: every chunk's
response ends up in the cache file keyed by the chunk's own text. -/
theorem chunkLoop_true_success (env : Env) :
    ∀ (cs : List (List Char)) (i fuel : Nat) (st : St) (rs : List (List Char)) (st2 : St),
      (∀ c ∈ cs, c.length ≤ MAX_CHUNK_SIZE) → cs.length < fuel →
      runM env true fuel (.chunkLoop i cs) st = (.list rs, st2) →
      countCF st2.evs = countCF st.evs →
      rs.length = cs.length ∧
      ∀ j (hj : j < cs.length) (hr : j < rs.length),
        lookupKV (readQuiet st2.file) (cs.get ⟨j, hj⟩) = some (rs.get ⟨j, hr⟩) := by
  intro cs
  induction cs with
  | nil =>
    intro i fuel st rs st2 _ hf h _
    obtain ⟨f, rfl⟩ : ∃ f, fuel = f + 1 := ⟨fuel - 1, by omega⟩
    rw [runM] at h
    obtain ⟨h1, h2⟩ := Prod.mk.injEq .. ▸ h
    have : rs = [] := by
      have := congrArg (fun x => match x with | Res.list rs => rs | _ => ([] : List (List Char))) h1
      simpa using this
    subst this
    exact ⟨rfl, fun j hj hr => absurd hj (by simp)⟩
  | cons c rest ih =>
    intro i fuel st rs st2 hcs hf h hcf
    obtain ⟨f, rfl⟩ : ∃ f, fuel = f + 1 := ⟨fuel - 1, by omega⟩
    rw [runM] at h
    simp only [if_true] at h
    have hrest : rest.length < f := by simp at hf; omega
    have hcs2 : ∀ q ∈ rest, q.length ≤ MAX_CHUNK_SIZE :=
      fun q hq => hcs q (List.mem_cons_of_mem _ hq)
    cases hhit : lookupKV (readQuiet st.file) c with
    | some t =>
      rw [hhit] at h
      rcases hrun2 : runM env true f (.chunkLoop (i + 1) rest) st with ⟨res2, st3⟩
      rw [hrun2] at h
      cases res2 with
      | text e => exact absurd (congrArg Prod.fst h) (by simp)
      | list rs2 =>
        obtain ⟨h1, h2⟩ := Prod.mk.injEq .. ▸ h
        have hrs : rs = t :: rs2 := by
          have := congrArg (fun x => match x with | Res.list rs => rs | _ => ([] : List (List Char))) h1
          simp at this
          exact this.symm
        subst hrs
        cases h2
        obtain ⟨hlen2, hprop2⟩ := ih (i + 1) f st rs2 st2 hcs2 hrest hrun2 hcf
        refine ⟨by simp [hlen2], ?_⟩
        intro j hj hr
        cases j with
        | zero =>
          show lookupKV (readQuiet st2.file) c = some t
          have := runM_cache_mono env f (.chunkLoop (i + 1) rest) st c t hhit
          rw [hrun2] at this
          exact this
        | succ n =>
          have hn : n < rest.length := by simpa using hj
          have hn2 : n < rs2.length := by simpa using hr
          exact hprop2 n hn hn2
    | none =>
      rw [hhit] at h
      obtain ⟨r1, st1, hrun1⟩ := runM_call_text env true f c st
      rw [hrun1] at h
      cases r1 with
      | ok t =>
        have hstore : lookupKV (readQuiet st1.file) c = some t :=
          runM_call_true_stores env f c st t st1 (hcs c (by simp)) hrun1
        by_cases hre : rest.isEmpty
        · rw [if_pos hre] at h
          rcases hrun2 : runM env true f (.chunkLoop (i + 1) rest) st1 with ⟨res2, st3⟩
          rw [hrun2] at h
          cases res2 with
          | text e => exact absurd (congrArg Prod.fst h) (by simp)
          | list rs2 =>
            obtain ⟨h1, h2⟩ := Prod.mk.injEq .. ▸ h
            have hrs : rs = t :: rs2 := by
              have := congrArg (fun x => match x with | Res.list rs => rs | _ => ([] : List (List Char))) h1
              simp at this
              exact this.symm
            subst hrs
            cases h2
            have hcf2 : countCF st2.evs = countCF st1.evs := by
              have m1 := runM_countCF_mono env true f (.call c) st
              rw [hrun1] at m1
              have m2 := runM_countCF_mono env true f (.chunkLoop (i + 1) rest) st1
              rw [hrun2] at m2
              simp only at m1 m2
              omega
            obtain ⟨hlen2, hprop2⟩ := ih (i + 1) f st1 rs2 st2 hcs2 hrest hrun2 hcf2
            refine ⟨by simp [hlen2], ?_⟩
            intro j hj hr
            cases j with
            | zero =>
              show lookupKV (readQuiet st2.file) c = some t
              have := runM_cache_mono env f (.chunkLoop (i + 1) rest) st1 c t hstore
              rw [hrun2] at this
              exact this
            | succ n =>
              exact hprop2 n (by simpa using hj) (by simpa using hr)
        · rw [if_neg hre] at h
          rcases hrun2 : runM env true f (.chunkLoop (i + 1) rest)
            { st1 with rIdx := st1.rIdx + 1, evs := st1.evs ++ [Event.sleep (30 + 15 * env.urand st1.rIdx)] } with ⟨res2, st3⟩
          rw [hrun2] at h
          cases res2 with
          | text e => exact absurd (congrArg Prod.fst h) (by simp)
          | list rs2 =>
            obtain ⟨h1, h2⟩ := Prod.mk.injEq .. ▸ h
            have hrs : rs = t :: rs2 := by
              have := congrArg (fun x => match x with | Res.list rs => rs | _ => ([] : List (List Char))) h1
              simp at this
              exact this.symm
            subst hrs
            cases h2
            have hs0 : countCF [Event.sleep (30 + 15 * env.urand st1.rIdx)] = 0 := by
              simp [countCF, isChunkFailEvt]
            have hcf2 : countCF st2.evs = countCF (({ st1 with rIdx := st1.rIdx + 1, evs := st1.evs ++ [Event.sleep (30 + 15 * env.urand st1.rIdx)] } : St)).evs := by
              have m1 := runM_countCF_mono env true f (.call c) st
              rw [hrun1] at m1
              have m2 := runM_countCF_mono env true f (.chunkLoop (i + 1) rest)
                { st1 with rIdx := st1.rIdx + 1, evs := st1.evs ++ [Event.sleep (30 + 15 * env.urand st1.rIdx)] }
              rw [hrun2] at m2
              simp only at m1 m2
              show countCF st2.evs = countCF (st1.evs ++ [Event.sleep (30 + 15 * env.urand st1.rIdx)])
              rw [countCF_append] at m2 ⊢
              omega
            obtain ⟨hlen2, hprop2⟩ := ih (i + 1) f _ rs2 st2 hcs2 hrest hrun2 hcf2
            refine ⟨by simp [hlen2], ?_⟩
            intro j hj hr
            cases j with
            | zero =>
              show lookupKV (readQuiet st2.file) c = some t
              have hstore2 : lookupKV (readQuiet ({ st1 with rIdx := st1.rIdx + 1, evs := st1.evs ++ [Event.sleep (30 + 15 * env.urand st1.rIdx)] } : St).file) c = some t := hstore
              have := runM_cache_mono env f (.chunkLoop (i + 1) rest) _ c t hstore2
              rw [hrun2] at this
              exact this
            | succ n =>
              exact hprop2 n (by simpa using hj) (by simpa using hr)
      | error e =>
        exfalso
        have m1 := runM_countCF_mono env true f (.call c) st
        rw [hrun1] at m1
        simp only at m1
        have hsm : countCF (st1.evs ++ [Event.chunkFailed i]) = countCF st1.evs + 1 := by
          rw [countCF_append]
          simp [countCF, isChunkFailEvt]
        by_cases hre : rest.isEmpty
        · rw [if_pos hre] at h
          rcases hrun2 : runM env true f (.chunkLoop (i + 1) rest)
            { st1 with evs := st1.evs ++ [Event.chunkFailed i] } with ⟨res2, st3⟩
          rw [hrun2] at h
          cases res2 with
          | text e2 => exact absurd (congrArg Prod.fst h) (by simp)
          | list rs2 =>
            obtain ⟨h1, h2⟩ := Prod.mk.injEq .. ▸ h
            cases h2
            have m2 := runM_countCF_mono env true f (.chunkLoop (i + 1) rest)
              { st1 with evs := st1.evs ++ [Event.chunkFailed i] }
            rw [hrun2] at m2
            simp only at m2
            rw [hsm] at m2
            omega
        · rw [if_neg hre] at h
          rcases hrun2 : runM env true f (.chunkLoop (i + 1) rest)
            { st1 with rIdx := st1.rIdx + 1, evs := (st1.evs ++ [Event.chunkFailed i]) ++ [Event.sleep (30 + 15 * env.urand st1.rIdx)] } with ⟨res2, st3⟩
          rw [hrun2] at h
          cases res2 with
          | text e2 => exact absurd (congrArg Prod.fst h) (by simp)
          | list rs2 =>
            obtain ⟨h1, h2⟩ := Prod.mk.injEq .. ▸ h
            cases h2
            have m2 := runM_countCF_mono env true f (.chunkLoop (i + 1) rest)
              { st1 with rIdx := st1.rIdx + 1, evs := (st1.evs ++ [Event.chunkFailed i]) ++ [Event.sleep (30 + 15 * env.urand st1.rIdx)] }
            rw [hrun2] at m2
            simp only at m2
            rw [countCF_append, hsm] at m2
            have hs0 : countCF [Event.sleep (30 + 15 * env.urand st1.rIdx)] = 0 := by
              simp [countCF, isChunkFailEvt]
            omega

/-- Second chunked pass: when every chunk is in the cache with its recorded
response, the chunk loop returns exactly those responses and does not change
the state at all (no remote call, no sleep, no write). -/
theorem chunkLoop_true_hits (env2 : Env) :
    ∀ (cs rs : List (List Char)) (i fuel : Nat) (st : St),
      cs.length < fuel → rs.length = cs.length →
      (∀ j (hj : j < cs.length) (hr : j < rs.length),
        lookupKV (readQuiet st.file) (cs.get ⟨j, hj⟩) = some (rs.get ⟨j, hr⟩)) →
      runM env2 true fuel (.chunkLoop i cs) st = (.list rs, st) := by
  intro cs
  induction cs with
  | nil =>
    intro rs i fuel st hf hlen _
    obtain ⟨f, rfl⟩ : ∃ f, fuel = f + 1 := ⟨fuel - 1, by omega⟩
    rw [List.length_nil, List.length_eq_zero] at hlen
    subst hlen
    rw [runM]
  | cons c rest ih =>
    intro rs i fuel st hf hlen hlook
    obtain ⟨f, rfl⟩ : ∃ f, fuel = f + 1 := ⟨fuel - 1, by omega⟩
    cases rs with
    | nil => simp at hlen
    | cons r0 rs2 =>
      rw [runM]
      simp only [if_true]
      have h0 : lookupKV (readQuiet st.file) c = some r0 := by
        have := hlook 0 (by simp) (by simp)
        simpa using this
      rw [h0]
      have hrest : runM env2 true f (.chunkLoop (i + 1) rest) st = (.list rs2, st) := by
        refine ih rs2 (i + 1) f st (by simp at hf; omega) (by simpa using hlen) ?_
        intro j hj hr
        have := hlook (j + 1) (by simpa using hj) (by simpa using hr)
        simpa using this
      rw [hrest]

/-- The chunk loop returns a `list` result unless it ran out of fuel. -/
theorem runM_chunkLoop_shape (env : Env) (u : Bool) :
    ∀ (fuel i : Nat) (cs : List (List Char)) (st : St),
      (∃ rs st2, runM env u fuel (.chunkLoop i cs) st = (.list rs, st2)) ∨
      (∃ st2, runM env u fuel (.chunkLoop i cs) st = (.text (.error .fuelOut), st2)) := by
  intro fuel
  induction fuel with
  | zero => intro i cs st; exact Or.inr ⟨st, by rw [runM]⟩
  | succ f ih =>
    intro i cs st
    match cs with
    | [] => exact Or.inl ⟨[], st, by rw [runM]⟩
    | c :: rest =>
      rw [runM]
      cases hhit : (if u then lookupKV (readQuiet st.file) c else none) with
      | some t =>
        rcases ih (i + 1) rest st with ⟨rs, st2, h⟩ | ⟨st2, h⟩
        · rw [h]; exact Or.inl ⟨t :: rs, st2, rfl⟩
        · rw [h]; exact Or.inr ⟨st2, rfl⟩
      | none =>
        obtain ⟨r1, st1, hrun1⟩ := runM_call_text env u f c st
        rw [hrun1]
        have hgen : ∀ (x : List Char) (stm : St),
            (∃ rs st2, (match runM env u f (.chunkLoop (i + 1) rest) (if rest.isEmpty then stm else { stm with rIdx := stm.rIdx + 1, evs := stm.evs ++ [Event.sleep (30 + 15 * env.urand stm.rIdx)] }) with
              | (Res.list rs, st4) => (Res.list (x :: rs), st4)
              | other => other) = (Res.list rs, st2)) ∨
            (∃ st2, (match runM env u f (.chunkLoop (i + 1) rest) (if rest.isEmpty then stm else { stm with rIdx := stm.rIdx + 1, evs := stm.evs ++ [Event.sleep (30 + 15 * env.urand stm.rIdx)] }) with
              | (Res.list rs, st4) => (Res.list (x :: rs), st4)
              | other => other) = (Res.text (.error .fuelOut), st2)) := by
          intro x stm
          rcases ih (i + 1) rest (if rest.isEmpty then stm else { stm with rIdx := stm.rIdx + 1, evs := stm.evs ++ [Event.sleep (30 + 15 * env.urand stm.rIdx)] }) with ⟨rs, st2, h⟩ | ⟨st2, h⟩
          · rw [h]; exact Or.inl ⟨x :: rs, st2, rfl⟩
          · rw [h]; exact Or.inr ⟨st2, rfl⟩
        cases r1 with
        | ok t => exact hgen t st1
        | error e => exact hgen (errMarker (i + 1)) { st1 with evs := st1.evs ++ [Event.chunkFailed i] }

theorem call_llm_inv (env : Env) (u : Bool) (fuel : Nat) (p : List Char)
    (st : St) (res : Except Err (List Char)) (s : St)
    (h : call_llm env fuel p u st = (res, s)) :
    runM env u fuel (.call p) st = (.text res, s) := by
  obtain ⟨r0, s0, hrun⟩ := runM_call_text env u fuel p st
  rw [call_llm, hrun] at h
  obtain ⟨h1, h2⟩ := Prod.mk.injEq .. ▸ h
  rw [hrun, h1, h2]

theorem cacheRead1_core (st : St) :
    countRemote (cacheRead1 st).2.evs = countRemote st.evs ∧
      (cacheRead1 st).2.oIdx = st.oIdx ∧ (cacheRead1 st).2.file = st.file ∧
      (cacheRead1 st).1 = readQuiet st.file := by
  rcases hf : st.file with _ | _ | c <;>
    simp [cacheRead1, hf, readQuiet, countRemote_append, countRemote, isRemoteEvt]

/-- Direct mode: when the cache cannot answer and the next 20 remote attempts
all fail, the call ends in the terminal failure after exactly 20 attempts. -/
theorem direct_exhaust (env : Env) (p : List Char) (u : Bool) (f : Nat) (st : St)
    (hlen : p.length ≤ MAX_CHUNK_SIZE)
    (hmiss : u = false ∨ lookupKV (readQuiet st.file) p = none)
    (hfail : ∀ j, j < 20 → ∀ t, env.oracle (st.oIdx + j) ≠ .ok t) :
    ∃ st2, call_llm env (f + 1) p u st = (.error .retriesExhausted, st2) ∧
      countRemote st2.evs = countRemote st.evs + 20 := by
  rw [call_llm, runM, if_neg (by omega)]
  cases u with
  | false =>
    simp only [Bool.false_eq_true, if_false]
    obtain ⟨s, hs, _, _, hrem, _, _⟩ := retryLoop_fail_all env p false 20 0 0 st hfail
    rw [hs]
    exact ⟨s, rfl, hrem⟩
  | true =>
    simp only [if_true]
    have hm : lookupKV (readQuiet st.file) p = none := by
      rcases hmiss with h | h
      · cases h
      · exact h
    obtain ⟨hcrem, hcoi, hcfi, hcca⟩ := cacheRead1_core st
    rcases hcr : cacheRead1 st with ⟨cache, st1⟩
    rw [hcr] at hcrem hcoi hcfi hcca
    dsimp only at hcrem hcoi hcfi hcca
    rw [show lookupKV cache p = none from by rw [hcca]; exact hm]
    obtain ⟨s, hs, _, _, hrem, _, _⟩ := retryLoop_fail_all env p true 20 0 0 st1
      (by rw [hcoi]; exact hfail)
    rw [hs]
    exact ⟨s, rfl, by rw [hrem, hcrem]⟩

/-- With caching on, a call that returned `r` leaves the cache able to answer
the same prompt: the repeat call returns the identical response and performs
no remote request, no sleep, and no write (the state is unchanged). -/
theorem second_call_cached (env env2 : Env) (T : List Char) (st : St) (f g : Nat)
    (r : List Char) (st1 : St)
    (hfit : ∀ c ∈ chunk_text T MAX_CHUNK_SIZE, c.length ≤ MAX_CHUNK_SIZE)
    (hf : (chunk_text T MAX_CHUNK_SIZE).length + 1 < f)
    (hg : (chunk_text T MAX_CHUNK_SIZE).length + 1 < g)
    (h1 : call_llm env f T true st = (.ok r, st1))
    (hnf : countCF st1.evs = countCF st.evs) :
    call_llm env2 g T true st1 = (.ok r, st1) := by
  have h1' := call_llm_inv env true f T st (.ok r) st1 h1
  by_cases hbig : T.length > MAX_CHUNK_SIZE
  · obtain ⟨f0, rfl⟩ : ∃ f0, f = f0 + 1 := ⟨f - 1, by omega⟩
    rw [runM, if_pos hbig] at h1'
    rcases runM_chunkLoop_shape env true f0 0 (chunk_text T MAX_CHUNK_SIZE) st with
      ⟨rs, st2, hcl⟩ | ⟨st2, hcl⟩
    · rw [hcl] at h1'
      obtain ⟨hres, hst⟩ := Prod.mk.injEq .. ▸ h1'
      have hr : joinSep nn rs = r := Except.ok.inj (Res.text.inj hres)
      subst hst
      obtain ⟨hlen, hlook⟩ := chunkLoop_true_success env
        (chunk_text T MAX_CHUNK_SIZE) 0 f0 st rs st2 hfit (by omega) hcl hnf
      obtain ⟨g0, rfl⟩ : ∃ g0, g = g0 + 1 := ⟨g - 1, by omega⟩
      rw [call_llm, runM, if_pos hbig,
        chunkLoop_true_hits env2 (chunk_text T MAX_CHUNK_SIZE) rs 0 g0 st2
          (by omega) hlen hlook]
      show ((Except.ok (joinSep nn rs) : Except Err (List Char)), st2) = (Except.ok r, st2)
      rw [hr]
    · rw [hcl] at h1'
      exact absurd (Res.text.inj (congrArg Prod.fst h1')) (by simp)
  · have hlen : T.length ≤ MAX_CHUNK_SIZE := by omega
    have hstore := runM_call_true_stores env f T st r st1 hlen h1'
    obtain ⟨g0, rfl⟩ : ∃ g0, g = g0 + 1 := ⟨g - 1, by omega⟩
    rw [call_llm, runM_call_true_hit env2 g0 T st1 r hstore hlen]

/-- The retry loop treats a missing and an unreadable cache file identically:
the runs stay in lockstep, appending the same events. -/
theorem retryLoop_file_equiv (env : Env) (p : List Char) (u : Bool) :
    ∀ (k rc ce : Nat) (f1 f2 : FileSt) (oi ri : Nat) (E1 E2 : List Event),
      readQuiet f1 = readQuiet f2 →
      ∃ r s1 s2 D,
        retryLoop env p u k rc ce ⟨f1, oi, ri, E1⟩ = (r, s1) ∧
        retryLoop env p u k rc ce ⟨f2, oi, ri, E2⟩ = (r, s2) ∧
        s1.evs = E1 ++ D ∧ s2.evs = E2 ++ D ∧
        readQuiet s1.file = readQuiet s2.file ∧
        s1.oIdx = s2.oIdx ∧ s1.rIdx = s2.rIdx ∧
        (0 < k → ∃ D2, D = Event.remote p :: D2) := by
  intro k
  induction k with
  | zero =>
    intro rc ce f1 f2 oi ri E1 E2 hq
    rw [retryLoop, retryLoop]
    exact ⟨.error .retriesExhausted, ⟨f1, oi, ri, E1⟩, ⟨f2, oi, ri, E2⟩, [],
      rfl, rfl, by simp, by simp, hq, rfl, rfl, fun h => absurd h (by omega)⟩
  | succ n ih =>
    intro rc ce f1 f2 oi ri E1 E2 hq
    rw [retryLoop, retryLoop]
    cases horc : env.oracle oi with
    | ok t =>
      cases u with
      | false =>
        simp only [Bool.false_eq_true, if_false]
        exact ⟨.ok t, ⟨f1, oi + 1, ri, E1 ++ [Event.remote p]⟩,
          ⟨f2, oi + 1, ri, E2 ++ [Event.remote p]⟩, [Event.remote p],
          rfl, rfl, rfl, rfl, hq, rfl, rfl, fun _ => ⟨[], rfl⟩⟩
      | true =>
        simp only [if_true]
        refine ⟨.ok t,
          ⟨.valid (insertKV (readQuiet f1) p t), oi + 1, ri,
            (E1 ++ [Event.remote p]) ++ [Event.cacheStore]⟩,
          ⟨.valid (insertKV (readQuiet f2) p t), oi + 1, ri,
            (E2 ++ [Event.remote p]) ++ [Event.cacheStore]⟩,
          [Event.remote p, Event.cacheStore], rfl, rfl, ?_, ?_, ?_, rfl, rfl,
          fun _ => ⟨[Event.cacheStore], rfl⟩⟩
        · show (E1 ++ [Event.remote p]) ++ [Event.cacheStore] = E1 ++ [Event.remote p, Event.cacheStore]
          simp
        · show (E2 ++ [Event.remote p]) ++ [Event.cacheStore] = E2 ++ [Event.remote p, Event.cacheStore]
          simp
        · show readQuiet (FileSt.valid (insertKV (readQuiet f1) p t))
            = readQuiet (FileSt.valid (insertKV (readQuiet f2) p t))
          rw [hq]
    | fail m =>
      simp only
      obtain ⟨r, s1, s2, D, h1, h2, he1, he2, hrq, hoi, hri, hhd⟩ := ih (rc + 1)
        (classifyWait m (rc + 1) ce (env.urand ri) (env.urand (ri + 1))).connErrs
        f1 f2 (oi + 1)
        (ri + (classifyWait m (rc + 1) ce (env.urand ri) (env.urand (ri + 1))).draws)
        (E1 ++ [Event.remote p] ++
          (match (classifyWait m (rc + 1) ce (env.urand ri) (env.urand (ri + 1))).cooldown with
            | some t => [Event.sleep t] | none => []) ++
          [Event.sleep (classifyWait m (rc + 1) ce (env.urand ri) (env.urand (ri + 1))).wait])
        (E2 ++ [Event.remote p] ++
          (match (classifyWait m (rc + 1) ce (env.urand ri) (env.urand (ri + 1))).cooldown with
            | some t => [Event.sleep t] | none => []) ++
          [Event.sleep (classifyWait m (rc + 1) ce (env.urand ri) (env.urand (ri + 1))).wait])
        hq
      refine ⟨r, s1, s2,
        [Event.remote p] ++
          (match (classifyWait m (rc + 1) ce (env.urand ri) (env.urand (ri + 1))).cooldown with
            | some t => [Event.sleep t] | none => []) ++
          [Event.sleep (classifyWait m (rc + 1) ce (env.urand ri) (env.urand (ri + 1))).wait] ++ D,
        h1, h2, ?_, ?_, hrq, hoi, hri,
        fun _ => ⟨(match (classifyWait m (rc + 1) ce (env.urand ri) (env.urand (ri + 1))).cooldown with
            | some t => [Event.sleep t] | none => []) ++
          [Event.sleep (classifyWait m (rc + 1) ce (env.urand ri) (env.urand (ri + 1))).wait] ++ D,
          by simp [List.append_assoc]⟩⟩
      · rw [he1]; simp [List.append_assoc]
      · rw [he2]; simp [List.append_assoc]

/-! ### The `_site` variant of `process_chunks_with_timeout` -/

/-- Python `f"[Failed to process chunk {k} after 3 attempts]"`
(`_site/utils/call_llm.py` line 464). -/
def siteMarker (k : Nat) : List Char :=
  ("[Failed to process chunk ").toList ++ Nat.toDigits 10 k ++
    (" after ").toList ++ Nat.toDigits 10 3 ++ (" attempts]").toList

/-- One chunk's attempt loop in the `_site` variant (lines 408-460): each
attempt arms a 180-second `signal.alarm`, makes the remote call directly, and
on failure sleeps `30 * 2^(retry_count-1)` seconds between attempts (only
before a further attempt); the `finally` clause clears the alarm.  `rem` is
`MAX_CHUNK_RETRIES - retry_count`. -/
def siteChunkTry (env : Env) (c : List Char) (useCache : Bool) :
    Nat → Nat → St → Option (List Char) × St
  | 0, _, st => (none, st)
  | rem + 1, rc, st =>
    let st1 : St := { st with
      oIdx := st.oIdx + 1,
      evs := st.evs ++ [Event.alarmSet 180, Event.remote c] }
    match env.oracle st.oIdx with
    | .ok t =>
      if useCache then
        (some t, { st1 with
          file := .valid (insertKV (readQuiet st1.file) c t),
          evs := st1.evs ++ [Event.cacheStore, Event.alarmClear] })
      else (some t, { st1 with evs := st1.evs ++ [Event.alarmClear] })
    | .fail _ =>
      let rc2 := rc + 1
      let st2 : St :=
        if rc2 < 3 then
          { st1 with
            evs := st1.evs ++ [Event.sleep ((30 * 2 ^ (rc2 - 1) : Nat) : ℚ), Event.alarmClear] }
        else { st1 with evs := st1.evs ++ [Event.alarmClear] }
      siteChunkTry env c useCache rem rc2 st2

/-- The `_site` variant of `process_chunks_with_timeout`
(`_site/utils/call_llm.py` lines 382-475): per chunk, try the cache, then up
to 3 alarm-bounded attempts, substituting `siteMarker` when all fail, with a
`30 + uniform(0,15)` pause between chunks unless the chunk was a cache hit. -/
def site_process_chunks_with_timeout (env : Env) (useCache : Bool) :
    Nat → List (List Char) → St → List (List Char) × St
  | _, [], st => ([], st)
  | i, c :: rest, st =>
    let hit : Option (List Char) :=
      if useCache then lookupKV (readQuiet st.file) c else none
    match hit with
    | some t =>
      let (rs, st2) := site_process_chunks_with_timeout env useCache (i + 1) rest st
      (t :: rs, st2)
    | none =>
      let (r1, st1) := siteChunkTry env c useCache 3 0 st
      let t := match r1 with | some t => t | none => siteMarker (i + 1)
      let st2 : St :=
        if rest.isEmpty then st1
        else { st1 with
          rIdx := st1.rIdx + 1,
          evs := st1.evs ++ [Event.sleep (30 + 15 * env.urand st1.rIdx)] }
      let (rs, st3) := site_process_chunks_with_timeout env useCache (i + 1) rest st2
      (t :: rs, st3)

/-- The full schedule of a chunk whose three attempts all fail in the `_site`
variant: three alarm-bounded attempts with backoff sleeps of 30 then 60
seconds. -/
def siteFailSchedule (c : List Char) : List Event :=
  [Event.alarmSet 180, Event.remote c, Event.sleep 30, Event.alarmClear,
   Event.alarmSet 180, Event.remote c, Event.sleep 60, Event.alarmClear,
   Event.alarmSet 180, Event.remote c, Event.alarmClear]

theorem siteChunkTry_fail_schedule (env : Env) (c : List Char) (u : Bool)
    (st : St) (hf : ∀ k t, env.oracle k ≠ .ok t) :
    siteChunkTry env c u 3 0 st
      = (none, { st with
          oIdx := st.oIdx + 3,
          evs := st.evs ++ siteFailSchedule c }) := by
  cases h0 : env.oracle st.oIdx with
  | ok t => exact absurd h0 (hf _ t)
  | fail m0 =>
    cases h1 : env.oracle (st.oIdx + 1) with
    | ok t => exact absurd h1 (hf _ t)
    | fail m1 =>
      cases h2 : env.oracle (st.oIdx + 2) with
      | ok t => exact absurd h2 (hf _ t)
      | fail m2 =>
        rw [siteChunkTry]
        simp only [h0]
        norm_num
        rw [siteChunkTry]
        simp only [h1]
        norm_num
        rw [siteChunkTry]
        simp only [h2]
        norm_num
        rw [siteChunkTry]
        simp [siteFailSchedule, St.mk.injEq, List.append_assoc]

/-! ### Concrete scenarios -/

/-- A generic non-classified error message. -/
def bmMsg : List Char := ("boom").toList

/-- Environment whose remote endpooint fails every attempt with `bmMsg` and
whose random stream is constantly 0. -/
def envFail : Env := ⟨fun _ => Outcome.fail bmMsg, fun _ => 0⟩

/-- Environment whose remote endpoint answers every attempt with `RESP`. -/
def envOK : Env := ⟨fun _ => Outcome.ok (("RESP").toList), fun _ => 0⟩

/-- Initial state: no cache file, fresh counters, empty trace. -/
def st0 : St := ⟨.absent, 0, 0, []⟩

/-- First oversized-scenario chunk: 300000 letters `a`. -/
def chA : List Char := List.replicate 300000 'a'

/-- Second oversized-scenario chunk: 300000 letters `b`. -/
def chB : List Char := List.replicate 300000 'b'

/-- An oversized prompt (600002 characters): two large paragraphs. -/
def tAB : List Char := chA ++ nn ++ chB

theorem envFail_oracle (i : Nat) : envFail.oracle i = Outcome.fail bmMsg := rfl

theorem envFail_urand (i : Nat) : envFail.urand i = 0 := rfl

theorem chA_len : chA.length = 300000 := by
  rw [chA, List.length_replicate]

theorem chB_len : chB.length = 300000 := by
  rw [chB, List.length_replicate]

theorem tAB_len : tAB.length = 600002 := by
  rw [tAB, List.length_append, List.length_append, chA_len, chB_len, nn]
  rfl

theorem newline_not_chA : '\n' ∉ chA := by
  rw [chA]
  intro hm
  exact absurd (List.mem_replicate.mp hm).2 (by decide)

theorem newline_not_chB : '\n' ∉ chB := by
  rw [chB]
  intro hm
  exact absurd (List.mem_replicate.mp hm).2 (by decide)

theorem chunkStepPara_start (m : Nat) (p : List Char) (h : p.length + 2 ≤ m) :
    chunkStepPara m ⟨[], []⟩ p = ⟨[], p⟩ := by
  rw [chunkStepPara]
  rw [if_neg (by show ¬(([] : List Char).length + p.length + 2 > m); simp; omega)]
  rfl

theorem chunkStepPara_flush (m : Nat) (chs : List (List Char)) (cur p : List Char)
    (h1 : cur.length + p.length + 2 > m) (h2 : 2 * cur.length > m) :
    chunkStepPara m ⟨chs, cur⟩ p = ⟨chs ++ [cur], p⟩ := by
  rw [chunkStepPara]
  rw [if_pos (by show cur.length + p.length + 2 > m; exact h1)]
  rw [if_pos (by show 2 * cur.length > m; exact h2)]

theorem chB_ne_nil : chB ≠ [] := by
  intro h
  have h2 := chB_len
  rw [h] at h2
  simp at h2

theorem chunk_tAB : chunk_text tAB MAX_CHUNK_SIZE = [chA, chB] := by
  have hsplit : splitSep2 tAB = [chA, chB] := by
    rw [tAB, splitSep2_append_sep _ _ newline_not_chA,
      splitSep2_no_newline _ newline_not_chB]
  have hfin : (splitSep2 tAB).foldl (chunkStepPara MAX_CHUNK_SIZE) ⟨[], []⟩
      = ⟨[chA], chB⟩ := by
    rw [hsplit, List.foldl_cons,
      chunkStepPara_start MAX_CHUNK_SIZE chA
        (by rw [chA_len]; simp only [MAX_CHUNK_SIZE]; omega),
      List.foldl_cons,
      chunkStepPara_flush MAX_CHUNK_SIZE [] chA chB
        (by rw [chA_len, chB_len]; simp only [MAX_CHUNK_SIZE]; omega)
        (by rw [chA_len]; simp only [MAX_CHUNK_SIZE]; omega),
      List.foldl_nil]
    rfl
  have hie : ((splitSep2 tAB).foldl (chunkStepPara MAX_CHUNK_SIZE) ⟨[], []⟩).cur.isEmpty = false := by
    rw [hfin]
    show chB.isEmpty = false
    cases hc : chB with
    | nil => exact absurd hc chB_ne_nil
    | cons a t => rfl
  rw [chunk_text, if_neg (by rw [tAB_len]; decide)]
  show (if ((splitSep2 tAB).foldl (chunkStepPara MAX_CHUNK_SIZE) ⟨[], []⟩).cur.isEmpty = true
    then ((splitSep2 tAB).foldl (chunkStepPara MAX_CHUNK_SIZE) ⟨[], []⟩).chunks
    else ((splitSep2 tAB).foldl (chunkStepPara MAX_CHUNK_SIZE) ⟨[], []⟩).chunks
      ++ [((splitSep2 tAB).foldl (chunkStepPara MAX_CHUNK_SIZE) ⟨[], []⟩).cur]) = [chA, chB]
  rw [hie, hfin]
  rfl

theorem chA_ne_chB : chA ≠ chB := by
  intro h
  have ha : 'a' ∈ chA := by
    rw [chA]
    exact List.mem_replicate.mpr ⟨by omega, rfl⟩
  rw [h, chB] at ha
  exact absurd (List.mem_replicate.mp ha).2 (by decide)

/-- Events of `k` consecutive failing attempts in the retry loop under
`envFail`: one remote call and one 15-second sleep each. -/
def failRunEvs (p : List Char) : Nat → List Event
  | 0 => []
  | k + 1 => [Event.remote p, Event.sleep 15] ++ failRunEvs p k

theorem classify_bm (rc ce : Nat) (u1 u2 : ℚ) :
    classifyWait bmMsg rc ce u1 u2 = ⟨15 + 10 * u1, ce, none, 1⟩ := by
  have h1 : isConnClass bmMsg = false := by decide
  have h2 : isRateClass bmMsg = false := by decide
  simp [classifyWait, h1, h2]

theorem retryLoop_envFail (p : List Char) (u : Bool) :
    ∀ (k rc ce : Nat) (st : St),
      retryLoop envFail p u k rc ce st
        = (.error .retriesExhausted,
           { st with oIdx := st.oIdx + k, rIdx := st.rIdx + k,
                     evs := st.evs ++ failRunEvs p k }) := by
  intro k
  induction k with
  | zero => intro rc ce st; simp [retryLoop, failRunEvs]
  | succ n ih =>
    intro rc ce st
    rw [retryLoop]
    simp only [envFail_oracle, envFail_urand, classify_bm]
    rw [ih]
    simp [failRunEvs, St.mk.injEq, List.append_assoc]
    omega

/-- A direct-mode call under `envFail` exhausts its 20 attempts. -/
theorem call_envFail_direct (u : Bool) (p : List Char)
    (hlen : p.length ≤ MAX_CHUNK_SIZE) (f : Nat) (st : St)
    (hfile : st.file = .absent) :
    runM envFail u (f + 1) (.call p) st
      = (.text (.error .retriesExhausted),
         { st with oIdx := st.oIdx + 20, rIdx := st.rIdx + 20,
                   evs := st.evs ++ failRunEvs p 20 }) := by
  rw [runM, if_neg (by omega)]
  cases u
  · simp only [Bool.false_eq_true, if_false]
    rw [retryLoop_envFail p false 20 0 0 st]
  · simp only [if_true]
    have hcr : cacheRead1 st = ([], st) := by
      rw [cacheRead1, hfile]
    rw [hcr]
    rw [show lookupKV [] p = none from rfl]
    rw [retryLoop_envFail p true 20 0 0 st]

theorem chB_fits : chB.length ≤ MAX_CHUNK_SIZE := by
  rw [chB_len]
  simp only [MAX_CHUNK_SIZE]
  omega

theorem chA_fits : chA.length ≤ MAX_CHUNK_SIZE := by
  rw [chA_len]
  simp only [MAX_CHUNK_SIZE]
  omega

/-- Processing `[chB]` (the tail of the failing chunked run): the call
exhausts its retries and the slot becomes the second error marker. -/
theorem chunkLoop_chB (u : Bool) (st : St) (hfile : st.file = .absent) :
    runM envFail u 2 (.chunkLoop 1 [chB]) st
      = (.list [errMarker 2],
         { st with oIdx := st.oIdx + 20, rIdx := st.rIdx + 20,
                   evs := (st.evs ++ failRunEvs chB 20) ++ [Event.chunkFailed 1] }) := by
  rw [runM]
  have hhit : (if u then lookupKV (readQuiet st.file) chB else none) = none := by
    cases u <;> simp [hfile, readQuiet, lookupKV]
  rw [hhit]
  have hc := call_envFail_direct u chB chB_fits 0 st hfile
  rw [show (0 : Nat) + 1 = 1 from rfl] at hc
  rw [hc]
  rfl

/-- The trace of the whole failing chunked run on `tAB`. -/
def failRunAll : List Event :=
  ((failRunEvs chA 20 ++ [Event.chunkFailed 0]) ++ [Event.sleep 30]) ++
    failRunEvs chB 20 ++ [Event.chunkFailed 1]

/-- One failing iteration of the chunk loop with a non-last chunk:
cache miss, the call errors, a marker is emitted and the loop continues
after the inter-chunk sleep. -/
theorem chunkLoop_fail_step (env : Env) (u : Bool) (fuel : Nat) (i : Nat)
    (c d : List Char) (rest : List (List Char)) (st st1 st2 st4 : St)
    (e : Err) (rs : List (List Char))
    (hhit : (if u then lookupKV (readQuiet st.file) c else none) = none)
    (hcall : runM env u fuel (.call c) st = (.text (.error e), st1))
    (hst2 : st2 = { st1 with
        rIdx := st1.rIdx + 1,
        evs := (st1.evs ++ [Event.chunkFailed i]) ++
          [Event.sleep (30 + 15 * env.urand st1.rIdx)] })
    (hrest : runM env u fuel (.chunkLoop (i + 1) (d :: rest)) st2
      = (.list rs, st4)) :
    runM env u (fuel + 1) (.chunkLoop i (c :: d :: rest)) st
      = (.list (errMarker (i + 1) :: rs), st4) := by
  subst hst2
  rw [runM]
  rw [hhit, hcall]
  dsimp only
  rw [show (d :: rest).isEmpty = false from rfl]
  simp only [Bool.false_eq_true, if_false]
  rw [hrest]

theorem chunkLoop_chAB (u : Bool) (st : St) (hfile : st.file = .absent) :
    runM envFail u 3 (.chunkLoop 0 [chA, chB]) st
      = (.list [errMarker 1, errMarker 2],
         { st with oIdx := st.oIdx + 40, rIdx := st.rIdx + 41,
                   evs := st.evs ++ failRunAll }) := by
  have hhit : (if u then lookupKV (readQuiet st.file) chA else none) = none := by
    cases u <;> simp [hfile, readQuiet, lookupKV]
  have hc := call_envFail_direct u chA chA_fits 1 st hfile
  rw [show (1 : Nat) + 1 = 2 from rfl] at hc
  have hcb := chunkLoop_chB u
    ⟨st.file, st.oIdx + 20, st.rIdx + 20 + 1,
      ((st.evs ++ failRunEvs chA 20) ++ [Event.chunkFailed 0]) ++
        [Event.sleep 30]⟩ hfile
  dsimp only at hcb
  have hst2 : (⟨st.file, st.oIdx + 20, st.rIdx + 20 + 1,
      ((st.evs ++ failRunEvs chA 20) ++ [Event.chunkFailed 0]) ++
        [Event.sleep 30]⟩ : St)
      = { (⟨st.file, st.oIdx + 20, st.rIdx + 20,
              st.evs ++ failRunEvs chA 20⟩ : St) with
          rIdx := st.rIdx + 20 + 1,
          evs := ((st.evs ++ failRunEvs chA 20) ++ [Event.chunkFailed 0]) ++
            [Event.sleep (30 + 15 * envFail.urand (st.rIdx + 20))] } := by
    rw [envFail_urand]
    norm_num
  have hmain := chunkLoop_fail_step envFail u 2 0 chA chB [] st _ _ _ _ _
    hhit hc hst2 hcb
  rw [show (0 : Nat) + 1 = 1 from rfl] at hmain
  rw [hmain]
  simp only [Prod.mk.injEq, St.mk.injEq, failRunAll]
  simp [List.append_assoc]





/-- `call_llm` on an oversized prompt joins the chunk-loop results with a
blank line. -/
theorem call_llm_oversized (env : Env) (u : Bool) (fuel : Nat)
    (prompt : List Char) (st st2 : St) (rs : List (List Char))
    (h : prompt.length > MAX_CHUNK_SIZE)
    (hres : runM env u fuel (.chunkLoop 0 (chunk_text prompt MAX_CHUNK_SIZE)) st
      = (.list rs, st2)) :
    call_llm env (fuel + 1) prompt u st = (.ok (joinSep nn rs), st2) := by
  rw [call_llm, runM, if_pos h, hres]

/-- The text the chunked failing run returns: two error markers joined by
the blank-line separator. -/
def failM : List Char := errMarker 1 ++ (nn ++ errMarker 2)

theorem call_envFail_tAB (u : Bool) (st : St) (hfile : st.file = .absent) :
    call_llm envFail 4 tAB u st
      = (.ok failM,
         { st with oIdx := st.oIdx + 40, rIdx := st.rIdx + 41,
                   evs := st.evs ++ failRunAll }) := by
  have hrun : runM envFail u 3 (.chunkLoop 0 (chunk_text tAB MAX_CHUNK_SIZE)) st
      = (.list [errMarker 1, errMarker 2],
         { st with oIdx := st.oIdx + 40, rIdx := st.rIdx + 41,
                   evs := st.evs ++ failRunAll }) := by
    rw [chunk_tAB]
    exact chunkLoop_chAB u st hfile
  have h := call_llm_oversized envFail u 3 tAB st _ _
    (by rw [tAB_len]; simp only [MAX_CHUNK_SIZE]; omega) hrun
  rw [h]
  rfl

/-- Events that record a remote request for a specific prompt. -/
def isRemoteForEvt (p : List Char) : Event → Bool
  | .remote q => q = p
  | _ => false

/-- How many remote requests for prompt `p` a trace records. -/
def countRemoteFor (p : List Char) (evs : List Event) : Nat :=
  (evs.filter (isRemoteForEvt p)).length

/-- Events that record arming the `SIGALRM` timer. -/
def isAlarmEvt : Event → Bool
  | .alarmSet _ => true
  | _ => false

theorem countRemoteFor_append (p : List Char) (a b : List Event) :
    countRemoteFor p (a ++ b)
      = countRemoteFor p a + countRemoteFor p b := by
  simp [countRemoteFor, List.filter_append]

theorem countRemoteFor_failRunEvs (p q : List Char) (k : Nat) :
    countRemoteFor p (failRunEvs q k) = if q = p then k else 0 := by
  induction k with
  | zero => simp [failRunEvs, countRemoteFor]
  | succ n ih =>
    rw [show failRunEvs q (n + 1)
        = [Event.remote q, Event.sleep 15] ++ failRunEvs q n from rfl]
    rw [countRemoteFor_append, ih]
    by_cases h : q = p
    · simp [countRemoteFor, isRemoteForEvt, h, Nat.add_comm]
    · simp [countRemoteFor, isRemoteForEvt, h]

theorem failRunEvs_no_alarm (q : List Char) (k : Nat) :
    (failRunEvs q k).all (fun e => !isAlarmEvt e) = true := by
  induction k with
  | zero => rfl
  | succ n ih =>
    rw [show failRunEvs q (n + 1)
        = [Event.remote q, Event.sleep 15] ++ failRunEvs q n from rfl]
    simp [isAlarmEvt] at ih ⊢
    exact ih

theorem failRunAll_no_alarm :
    failRunAll.all (fun e => !isAlarmEvt e) = true := by
  have h1 := failRunEvs_no_alarm chA 20
  have h2 := failRunEvs_no_alarm chB 20
  simp [failRunAll, isAlarmEvt] at h1 h2 ⊢
  exact ⟨h1, h2⟩

theorem countRemoteFor_failRunAll :
    countRemoteFor chA failRunAll = 20 := by
  rw [failRunAll]
  rw [countRemoteFor_append, countRemoteFor_append, countRemoteFor_append,
    countRemoteFor_append]
  rw [countRemoteFor_failRunEvs, countRemoteFor_failRunEvs]
  rw [if_pos rfl, if_neg (fun h => chA_ne_chB h.symm)]
  rfl

/-! ### The claims -/

/-- The C1 counterexample text `"aaaa.\nbbbb.\ncccc"`. -/
def t1 : List Char := ("aaaa.\nbbbb.\ncccc").toList

/-- First chunk produced on `t1`. -/
def t1ChunkA : List Char := ("aaaa.").toList

/-- Second chunk produced on `t1`: the single `\n` separators inside the
second chunk have been replaced by single spaces. -/
def t1ChunkB : List Char := ("bbbb. cccc").toList

theorem chunk_text_t1 : chunk_text t1 10 = [t1ChunkA, t1ChunkB] := by decide

/-- C1 fails as stated: on `t1 = "aaaa.\nbbbb.\ncccc"` with `max_size = 10`
no choice of restored separators reconstructs the input, because
`split_into_sentences` strips the whitespace after each sentence delimiter and
the chunk builder rejoins sentences with a single space: the `\n` after
`"bbbb."` comes back as `" "`. -/
theorem C1_counterexample : ¬ CanReconstruct t1 (chunk_text t1 10) := by
  rw [chunk_text_t1]
  rintro ⟨seps, hlen, hint⟩
  have hlen1 : seps.length = 1 := by simpa using hlen
  obtain ⟨s, hs⟩ : ∃ s, seps = [s] := by
    cases seps with
    | nil => simp at hlen1
    | cons s t =>
      cases t with
      | nil => exact ⟨s, rfl⟩
      | cons u v => simp at hlen1
  subst hs
  have hint2 : t1ChunkA ++ s ++ t1ChunkB = t1 := by
    simpa [interleave, List.append_assoc] using hint
  have hslen : s.length = 1 := by
    have := congrArg List.length hint2
    simp [t1, t1ChunkA, t1ChunkB] at this
    omega
  obtain ⟨ch, hch⟩ : ∃ ch, s = [ch] := by
    cases s with
    | nil => simp at hslen
    | cons a t =>
      cases t with
      | nil => exact ⟨a, rfl⟩
      | cons u v => simp at hslen
  subst hch
  have h11 := congrArg (fun l => l.get? 11) hint2
  simp [t1, t1ChunkA, t1ChunkB] at h11

/-- C1 (amended): whenever every paragraph of the input is nonempty and fits
within `max_size` — so that the sentence-level re-splitting never runs —
concatenating the chunks of `chunk_text` with suitable restored separators
reconstructs the input exactly. -/
theorem C1_chunk_reconstruct (T : List Char) (m : Nat)
    (hp : ∀ p ∈ splitSep2 T, p ≠ [] ∧ p.length ≤ m) :
    CanReconstruct T (chunk_text T m) :=
  chunk_text_reconstruct T m hp

theorem C1_chunk_reconstruct_witness :
    (∀ p ∈ splitSep2 (("ab\n\ncd").toList), p ≠ [] ∧ p.length ≤ 2) ∧
      CanReconstruct (("ab\n\ncd").toList) (chunk_text (("ab\n\ncd").toList) 2) :=
  ⟨by decide, C1_chunk_reconstruct (("ab\n\ncd").toList) 2 (by decide)⟩

/-- The C9 counterexample text `"aaaaaaa\n\nbb. cc. dd. ee"`. -/
def t9 : List Char := ("aaaaaaa\n\nbb. cc. dd. ee").toList

/-- C9 fails as stated: on `t9` with `max_size = 10`, `chunk_text` emits a
segment longer than both `max_size` and the longest single sentence of the
input, because an oversized accumulated paragraph run is flushed whole rather
than only a single oversized sentence being passed through. -/
theorem C9_counterexample :
    ¬ ∀ c ∈ chunk_text t9 10, c.length ≤ max 10 (maxSentLen t9) := by decide

/-- C9 (amended): every segment `chunk_text` returns either fits within
`max_size`, or is literally one paragraph of the input, or literally one
sentence of one paragraph — so an oversized segment is never an arbitrary
fragment, but it can be a whole paragraph, not only a single sentence. -/
theorem C9_segment_bound (T : List Char) (m : Nat) (c : List Char)
    (hc : c ∈ chunk_text T m) : SegOK T m c :=
  chunk_segment_bound T m c hc

theorem C9_segment_bound_witness :
    (("ab").toList ∈ chunk_text (("ab").toList) 10) ∧
      SegOK (("ab").toList) 10 (("ab").toList) :=
  ⟨by decide, C9_segment_bound (("ab").toList) 10 (("ab").toList) (by decide)⟩

theorem siteChunkTry_false_frame (env : Env) (c : List Char) :
    ∀ (rem rc : Nat) (st : St),
      (siteChunkTry env c false rem rc st).2.file = st.file ∧
      countCacheEvt (siteChunkTry env c false rem rc st).2.evs
        = countCacheEvt st.evs := by
  intro rem
  induction rem with
  | zero => intro rc st; exact ⟨rfl, rfl⟩
  | succ n ih =>
    intro rc st
    rw [siteChunkTry]
    cases horc : env.oracle st.oIdx with
    | ok t =>
      simp only [Bool.false_eq_true, if_false]
      refine ⟨by first | rfl | trivial, ?_⟩
      dsimp only
      simp [countCacheEvt, isCacheEvt, List.filter_append]
    | fail m =>
      dsimp only
      by_cases hrc : rc + 1 < 3
      · rw [if_pos hrc]
        obtain ⟨h1, h2⟩ := ih (rc + 1)
          { st with
            oIdx := st.oIdx + 1,
            evs := (st.evs ++ [Event.alarmSet 180, Event.remote c]) ++
              [Event.sleep ((30 * 2 ^ (rc + 1 - 1) : Nat) : ℚ), Event.alarmClear] }
        refine ⟨?_, ?_⟩
        · rw [h1]
        · rw [h2]
          simp [countCacheEvt, isCacheEvt, List.filter_append]
      · rw [if_neg hrc]
        obtain ⟨h1, h2⟩ := ih (rc + 1)
          { st with
            oIdx := st.oIdx + 1,
            evs := (st.evs ++ [Event.alarmSet 180, Event.remote c]) ++
              [Event.alarmClear] }
        refine ⟨?_, ?_⟩
        · rw [h1]
        · rw [h2]
          simp [countCacheEvt, isCacheEvt, List.filter_append]

theorem site_false_frame (env : Env) :
    ∀ (cs : List (List Char)) (i : Nat) (st : St),
      (site_process_chunks_with_timeout env false i cs st).2.file = st.file ∧
      countCacheEvt (site_process_chunks_with_timeout env false i cs st).2.evs
        = countCacheEvt st.evs := by
  intro cs
  induction cs with
  | nil => intro i st; exact ⟨rfl, rfl⟩
  | cons c rest ih =>
    intro i st
    rw [site_process_chunks_with_timeout]
    simp only [Bool.false_eq_true, if_false]
    rcases htr : siteChunkTry env c false 3 0 st with ⟨r1, st1⟩
    obtain ⟨hf1, hc1⟩ := siteChunkTry_false_frame env c 3 0 st
    rw [htr] at hf1 hc1
    dsimp only at hf1 hc1 ⊢
    by_cases hrest : rest.isEmpty
    · rw [if_pos hrest]
      obtain ⟨hf2, hc2⟩ := ih (i + 1) st1
      rcases hrec : site_process_chunks_with_timeout env false (i + 1) rest st1
        with ⟨rs, st3⟩
      rw [hrec] at hf2 hc2
      dsimp only at hf2 hc2 ⊢
      exact ⟨hf2.trans hf1, hc2.trans hc1⟩
    · rw [if_neg hrest]
      obtain ⟨hf2, hc2⟩ := ih (i + 1)
        { st1 with
          rIdx := st1.rIdx + 1,
          evs := st1.evs ++ [Event.sleep (30 + 15 * env.urand st1.rIdx)] }
      rcases hrec : site_process_chunks_with_timeout env false (i + 1) rest
        { st1 with
          rIdx := st1.rIdx + 1,
          evs := st1.evs ++ [Event.sleep (30 + 15 * env.urand st1.rIdx)] }
        with ⟨rs, st3⟩
      rw [hrec] at hf2 hc2
      dsimp only at hf2 hc2 ⊢
      refine ⟨hf2.trans hf1, ?_⟩
      rw [hc2]
      rw [show countCacheEvt (st1.evs ++ [Event.sleep (30 + 15 * env.urand st1.rIdx)])
          = countCacheEvt st1.evs from by
        simp [countCacheEvt, isCacheEvt, List.filter_append]]
      exact hc1

/-- C10: a call with `use_cache = false` leaves the cache file untouched and
performs no cache read or write (no store and no read-warning event is
appended to the trace). -/
theorem C10_no_cache_frame (env : Env) (fuel : Nat) (p : List Char) (st : St) :
    ((call_llm env fuel p false st).2.file = st.file ∧
     countCacheEvt (call_llm env fuel p false st).2.evs = countCacheEvt st.evs) ∧
    ∀ (cs : List (List Char)) (i : Nat),
      (site_process_chunks_with_timeout env false i cs st).2.file = st.file ∧
      countCacheEvt (site_process_chunks_with_timeout env false i cs st).2.evs
        = countCacheEvt st.evs := by
  constructor
  · obtain ⟨r0, s0, hrun⟩ := runM_call_text env false fuel p st
    have h := runM_false_frame env fuel (.call p) st
    rw [hrun] at h
    rw [call_llm, hrun]
    exact h
  · intro cs i
    exact site_false_frame env cs i st

/-- C4: for a connection-reset-classified failure the computed wait is
`45 + uniform(0,15) ∈ [45, 60)`; once the consecutive-connection-error count
reaches 10 the handler takes a forced cooldown of exactly 180 seconds and
resets the counter to zero, and below the threshold it just increments the
counter. -/
theorem C4_conn_reset_wait (msg : List Char) (rc ce : Nat) (u1 u2 : ℚ)
    (hc : isConnClass msg = true) (h0 : 0 ≤ u1) (h1 : u1 < 1) :
    45 ≤ (classifyWait msg rc ce u1 u2).wait ∧
    (classifyWait msg rc ce u1 u2).wait < 60 ∧
    (10 ≤ ce + 1 →
      (classifyWait msg rc ce u1 u2).cooldown = some 180 ∧
      (classifyWait msg rc ce u1 u2).connErrs = 0) ∧
    (ce + 1 < 10 →
      (classifyWait msg rc ce u1 u2).cooldown = none ∧
      (classifyWait msg rc ce u1 u2).connErrs = ce + 1) := by
  unfold classifyWait
  rw [hc]
  rw [if_pos rfl]
  by_cases hce : ce + 1 ≥ 10
  · rw [if_pos hce]
    dsimp only
    exact ⟨by linarith, by linarith, fun _ => ⟨rfl, rfl⟩,
      fun hlt => absurd hce (by omega)⟩
  · rw [if_neg hce]
    dsimp only
    exact ⟨by linarith, by linarith, fun hge => absurd hge hce,
      fun _ => ⟨rfl, rfl⟩⟩

theorem C4_conn_reset_wait_witness :
    45 ≤ (classifyWait (("Connection reset by peer").toList) 1 9 0 0).wait ∧
    (classifyWait (("Connection reset by peer").toList) 1 9 0 0).wait < 60 ∧
    (10 ≤ 9 + 1 →
      (classifyWait (("Connection reset by peer").toList) 1 9 0 0).cooldown
        = some 180 ∧
      (classifyWait (("Connection reset by peer").toList) 1 9 0 0).connErrs = 0) ∧
    (9 + 1 < 10 →
      (classifyWait (("Connection reset by peer").toList) 1 9 0 0).cooldown
        = none ∧
      (classifyWait (("Connection reset by peer").toList) 1 9 0 0).connErrs
        = 9 + 1) :=
  C4_conn_reset_wait (("Connection reset by peer").toList) 1 9 0 0
    (by decide) (by norm_num) (by norm_num)

/-- C5: for a rate-limit-classified failure with no parseable server hint the
wait is `min(15 + retry_count*5, 60)` scaled by a jitter in `[0.8, 1.2)`, so
it lies in `[12, min(15 + retry_count*5, 60) * 1.2]`; with a server hint `g`
the wait is exactly `g` scaled by a factor in `[1, 1.2]` and the default
formula is not used. -/
theorem C5_rate_limit_wait (msg : List Char) (rc ce : Nat) (u1 u2 : ℚ)
    (hc : isConnClass msg = false) (hr : isRateClass msg = true)
    (h0 : 0 ≤ u1) (h1 : u1 < 1) (h2 : 0 ≤ u2) (h3 : u2 < 1) :
    (googleHint msg = none →
      12 ≤ (classifyWait msg rc ce u1 u2).wait ∧
      (classifyWait msg rc ce u1 u2).wait
        ≤ ((min (15 + rc * 5) 60 : Nat) : ℚ) * (6 / 5)) ∧
    (∀ g, googleHint msg = some g →
      ∃ fac : ℚ, 1 ≤ fac ∧ fac ≤ 6 / 5 ∧
        (classifyWait msg rc ce u1 u2).wait = g * fac) := by
  unfold classifyWait
  rw [hc, hr]
  simp only [Bool.false_eq_true, if_false, eq_self_iff_true, if_true]
  constructor
  · intro hg
    rw [hg]
    dsimp only
    have hmin : (15 : ℚ) ≤ ((min (15 + rc * 5) 60 : Nat) : ℚ) := by
      have h : (15 : Nat) ≤ min (15 + rc * 5) 60 := by omega
      exact_mod_cast h
    constructor
    · have hj : (4 / 5 : ℚ) ≤ 4 / 5 + 2 / 5 * u1 := by nlinarith
      nlinarith
    · have hj : 4 / 5 + 2 / 5 * u1 ≤ (6 / 5 : ℚ) := by nlinarith
      have hj0 : (0 : ℚ) ≤ 4 / 5 + 2 / 5 * u1 := by nlinarith
      nlinarith
  · intro g hg
    rw [hg]
    dsimp only
    exact ⟨1 + 1 / 5 * u2, by nlinarith, by nlinarith, rfl⟩

theorem C5_rate_limit_wait_witness :
    (googleHint (("RESOURCE_EXHAUSTED").toList) = none →
      12 ≤ (classifyWait (("RESOURCE_EXHAUSTED").toList) 2 0 0 0).wait ∧
      (classifyWait (("RESOURCE_EXHAUSTED").toList) 2 0 0 0).wait
        ≤ ((min (15 + 2 * 5) 60 : Nat) : ℚ) * (6 / 5)) ∧
    (∀ g, googleHint (("RESOURCE_EXHAUSTED").toList) = some g →
      ∃ fac : ℚ, 1 ≤ fac ∧ fac ≤ 6 / 5 ∧
        (classifyWait (("RESOURCE_EXHAUSTED").toList) 2 0 0 0).wait = g * fac) :=
  C5_rate_limit_wait (("RESOURCE_EXHAUSTED").toList) 2 0 0 0
    (by decide) (by decide) (by norm_num) (by norm_num) (by norm_num)
    (by norm_num)

/-- C2 is false of the active `utils/call_llm.py`: in the failing chunked run
on `tAB` the first chunk's prompt is sent to the remote endpoint 20 times
(the per-call retry limit, not the claimed 3 whole-chunk attempts) and no
`SIGALRM` timer is ever armed, so there is no 180-second per-chunk timeout.
Only the stale `_site` copy implements the claimed schedule. -/
theorem C2_counterexample :
    ∃ r st2, call_llm envFail 4 tAB true st0 = (r, st2) ∧
      countRemoteFor chA st2.evs = 20 ∧
      st2.evs.all (fun e => ! isAlarmEvt e) = true := by
  refine ⟨.ok failM, _, call_envFail_tAB true st0 rfl, ?_, ?_⟩
  · show countRemoteFor chA (st0.evs ++ failRunAll) = 20
    rw [show st0.evs = [] from rfl, List.nil_append]
    exact countRemoteFor_failRunAll
  · show (st0.evs ++ failRunAll).all (fun e => ! isAlarmEvt e) = true
    rw [show st0.evs = [] from rfl, List.nil_append]
    exact failRunAll_no_alarm

/-- C2 (amended): the claimed schedule is implemented by the
`process_chunks_with_timeout` of the stale `_site/utils/call_llm.py` copy, not
by the active `utils/call_llm.py`: there, when an environment fails every
attempt, a chunk is tried exactly 3 times, each attempt arms a 180-second
`SIGALRM` timer (cleared in the `finally`), and the attempts are separated by
backoff sleeps of 30 then 60 seconds — the trace is exactly
`siteFailSchedule`. -/
theorem C2_site_chunk_schedule (env : Env) (c : List Char) (u : Bool) (st : St)
    (hf : ∀ k t, env.oracle k ≠ .ok t) :
    siteChunkTry env c u 3 0 st
      = (none, { st with
          oIdx := st.oIdx + 3,
          evs := st.evs ++ siteFailSchedule c }) :=
  siteChunkTry_fail_schedule env c u st hf

theorem C2_site_chunk_schedule_witness :
    siteChunkTry envFail (("x").toList) true 3 0 st0
      = (none, { st0 with
          oIdx := st0.oIdx + 3,
          evs := st0.evs ++ siteFailSchedule (("x").toList) }) :=
  C2_site_chunk_schedule envFail (("x").toList) true st0
    (fun k _ h => Outcome.noConfusion (envFail_oracle k ▸ h))

/-- C3 is false for oversized prompts: on `tAB`, although every remote attempt
fails and the per-chunk retry loops exhaust their 20 attempts, the top-level
call returns `.ok` — the chunked orchestrator swallows the exhaustion into
per-chunk error markers instead of propagating the terminal failure. -/
theorem C3_counterexample :
    (∀ k t, envFail.oracle k ≠ Outcome.ok t) ∧
    ∃ st2, call_llm envFail 4 tAB true st0 = (.ok failM, st2) :=
  ⟨fun k _ h => Outcome.noConfusion (envFail_oracle k ▸ h),
   ⟨_, call_envFail_tAB true st0 rfl⟩⟩

/-- C3 (amended): in direct (unchunked) mode the claim holds: if the prompt
fits in one chunk and every remote attempt fails, the retry loop exhausts its
20 attempts and the exhaustion failure propagates out of the top-level call.
In chunked mode it is swallowed into markers (see the counterexample). -/
theorem C3_direct_exhaust_propagates (env : Env) (p : List Char) (u : Bool)
    (f : Nat) (st : St)
    (hlen : p.length ≤ MAX_CHUNK_SIZE)
    (hmiss : u = false ∨ lookupKV (readQuiet st.file) p = none)
    (hfail : ∀ j, j < 20 → ∀ t, env.oracle (st.oIdx + j) ≠ .ok t) :
    ∃ st2, call_llm env (f + 1) p u st = (.error .retriesExhausted, st2) ∧
      countRemote st2.evs = countRemote st.evs + 20 :=
  direct_exhaust env p u f st hlen hmiss hfail

theorem C3_direct_exhaust_propagates_witness :
    ∃ st2, call_llm envFail 1 (("hi").toList) false st0
      = (.error .retriesExhausted, st2) ∧
      countRemote st2.evs = countRemote st0.evs + 20 :=
  C3_direct_exhaust_propagates envFail (("hi").toList) false 0 st0
    (by decide) (Or.inl rfl)
    (fun j _ _ h => Outcome.noConfusion (envFail_oracle (st0.oIdx + j) ▸ h))

/-- C6: in chunked mode (all chunks within the size limit, enough fuel), the
call never raises: it returns `.ok` on the chunk results joined in original
order, one slot per chunk, and every slot is either the distinguishable
failure marker for its position (with the failure recorded in the trace) or a
response the remote endpoint produced. -/
theorem C6_chunk_failure_markers (env : Env) (T : List Char) (st : St)
    (fuel : Nat)
    (hbig : T.length > MAX_CHUNK_SIZE)
    (hfit : ∀ c ∈ chunk_text T MAX_CHUNK_SIZE, c.length ≤ MAX_CHUNK_SIZE)
    (hf : (chunk_text T MAX_CHUNK_SIZE).length < fuel) :
    ∃ rs st2, call_llm env (fuel + 1) T false st = (.ok (joinSep nn rs), st2) ∧
      rs.length = (chunk_text T MAX_CHUNK_SIZE).length ∧
      ∀ j (hr : j < rs.length),
        (rs.get ⟨j, hr⟩ = errMarker (j + 1) ∧ Event.chunkFailed j ∈ st2.evs) ∨
        ∃ k, env.oracle k = .ok (rs.get ⟨j, hr⟩) := by
  obtain ⟨rs, st2, hrun, hlen, hslots⟩ :=
    chunkLoop_false env (chunk_text T MAX_CHUNK_SIZE) 0 fuel st hfit hf
  refine ⟨rs, st2, call_llm_oversized env false fuel T st st2 rs hbig hrun,
    hlen, ?_⟩
  intro j hr
  rcases hslots j hr with ⟨hm, hf2⟩ | hok
  · rw [Nat.zero_add] at hm hf2
    exact Or.inl ⟨hm, hf2⟩
  · exact Or.inr hok

theorem C6_chunk_failure_markers_witness :
    ∃ rs st2, call_llm envFail 4 tAB false st0 = (.ok (joinSep nn rs), st2) ∧
      rs.length = (chunk_text tAB MAX_CHUNK_SIZE).length ∧
      ∀ j (hr : j < rs.length),
        (rs.get ⟨j, hr⟩ = errMarker (j + 1) ∧ Event.chunkFailed j ∈ st2.evs) ∨
        ∃ k, envFail.oracle k = .ok (rs.get ⟨j, hr⟩) :=
  C6_chunk_failure_markers envFail tAB st0 3
    (by rw [tAB_len]; simp only [MAX_CHUNK_SIZE]; omega)
    (by rw [chunk_tAB]
        intro c hc
        cases hc with
        | head => exact chA_fits
        | tail _ h2 =>
          cases h2 with
          | head => exact chB_fits
          | tail _ h3 => cases h3)
    (by rw [chunk_tAB]; norm_num)

theorem countRemote_failRunEvs (p : List Char) (k : Nat) :
    countRemote (failRunEvs p k) = k := by
  induction k with
  | zero => rfl
  | succ n ih =>
    rw [show failRunEvs p (n + 1)
        = [Event.remote p, Event.sleep 15] ++ failRunEvs p n from rfl]
    rw [countRemote_append, ih]
    simp [countRemote, isRemoteEvt, Nat.add_comm]

theorem countRemote_failRunAll : countRemote failRunAll = 40 := by
  rw [failRunAll]
  rw [countRemote_append, countRemote_append, countRemote_append,
    countRemote_append, countRemote_failRunEvs, countRemote_failRunEvs]
  rfl

/-- C7 is false in chunked mode when chunks fail: on `tAB` with caching on,
two successive calls return the identical `.ok` response (the joined error
markers), yet the second call performs 40 fresh remote requests — failed
chunks are never written to the cache, so nothing is served from it. -/
theorem C7_counterexample :
    ∃ r st1 st2,
      call_llm envFail 4 tAB true st0 = (r, st1) ∧
      call_llm envFail 4 tAB true st1 = (r, st2) ∧
      countRemote st2.evs = countRemote st1.evs + 40 := by
  refine ⟨.ok failM, _, _, call_envFail_tAB true st0 rfl,
    call_envFail_tAB true _ rfl, ?_⟩
  dsimp only
  rw [countRemote_append, countRemote_failRunAll]

/-- C7 (amended): when the first cached call succeeds with no failed chunk
(every chunk fits, enough fuel), a repeat call — even against an environment
whose remote endpoint now behaves arbitrarily — returns the identical
response, leaves the state untouched, and performs no remote request. -/
theorem C7_second_call_cached (env env2 : Env) (T : List Char) (st : St)
    (f g : Nat) (r : List Char) (st1 : St)
    (hfit : ∀ c ∈ chunk_text T MAX_CHUNK_SIZE, c.length ≤ MAX_CHUNK_SIZE)
    (hf : (chunk_text T MAX_CHUNK_SIZE).length + 1 < f)
    (hg : (chunk_text T MAX_CHUNK_SIZE).length + 1 < g)
    (h1 : call_llm env f T true st = (.ok r, st1))
    (hnf : countCF st1.evs = countCF st.evs) :
    call_llm env2 g T true st1 = (.ok r, st1) ∧
    countRemote (call_llm env2 g T true st1).2.evs = countRemote st1.evs := by
  have h := second_call_cached env env2 T st f g r st1 hfit hf hg h1 hnf
  exact ⟨h, by rw [h]⟩

/-- The state after a first successful cached call of `"hi"` against `envOK`:
the response is cached, one remote request and one cache write in the trace. -/
def stHi : St :=
  ⟨.valid [((("hi").toList), (("RESP").toList))], 1, 0,
    [Event.remote (("hi").toList), Event.cacheStore]⟩

theorem C7_second_call_cached_witness :
    call_llm envFail 3 (("hi").toList) true stHi
      = (.ok (("RESP").toList), stHi) ∧
    countRemote (call_llm envFail 3 (("hi").toList) true stHi).2.evs
      = countRemote stHi.evs :=
  C7_second_call_cached envOK envFail (("hi").toList) st0 3 3
    (("RESP").toList) stHi
    (by decide) (by decide) (by decide) (by rfl) (by rfl)

/-- C8: a cache file whose contents are not valid JSON is non-fatal: with
caching on, the call logs a warning and then proceeds exactly as if the cache
were absent — same result, identical events after the warning (lockstep,
starting with the remote request), and readably-equal final cache state. -/
theorem C8_invalid_cache_nonfatal (env : Env) (p : List Char)
    (fuel oi ri : Nat) (E1 E2 : List Event)
    (hlen : p.length ≤ MAX_CHUNK_SIZE) :
    ∃ r s1 s2 D,
      call_llm env (fuel + 1) p true ⟨.invalid, oi, ri, E1⟩ = (r, s1) ∧
      call_llm env (fuel + 1) p true ⟨.absent, oi, ri, E2⟩ = (r, s2) ∧
      s1.evs = (E1 ++ [Event.warn]) ++ D ∧
      s2.evs = E2 ++ D ∧
      readQuiet s1.file = readQuiet s2.file ∧
      ∃ D2, D = Event.remote p :: D2 := by
  obtain ⟨r, s1, s2, D, h1, h2, he1, he2, hrq, hoi, hri, hhd⟩ :=
    retryLoop_file_equiv env p true 20 0 0 .invalid .absent oi ri
      (E1 ++ [Event.warn]) E2 rfl
  refine ⟨r, s1, s2, D, ?_, ?_, he1, he2, hrq, hhd (by omega)⟩
  · rw [call_llm, runM, if_neg (by omega)]
    simp only [if_true]
    rw [show cacheRead1 ⟨.invalid, oi, ri, E1⟩
        = ([], ⟨.invalid, oi, ri, E1 ++ [Event.warn]⟩) from rfl]
    dsimp only
    rw [show lookupKV ([] : List (List Char × List Char)) p = none from rfl]
    rw [h1]
  · rw [call_llm, runM, if_neg (by omega)]
    simp only [if_true]
    rw [show cacheRead1 ⟨.absent, oi, ri, E2⟩
        = ([], ⟨.absent, oi, ri, E2⟩) from rfl]
    dsimp only
    rw [show lookupKV ([] : List (List Char × List Char)) p = none from rfl]
    rw [h2]

theorem C8_invalid_cache_nonfatal_witness :
    ∃ r s1 s2 D,
      call_llm envOK 1 (("hi").toList) true ⟨.invalid, 0, 0, []⟩ = (r, s1) ∧
      call_llm envOK 1 (("hi").toList) true ⟨.absent, 0, 0, []⟩ = (r, s2) ∧
      s1.evs = (([] : List Event) ++ [Event.warn]) ++ D ∧
      s2.evs = ([] : List Event) ++ D ∧
      readQuiet s1.file = readQuiet s2.file ∧
      ∃ D2, D = Event.remote (("hi").toList) :: D2 :=
  C8_invalid_cache_nonfatal envOK (("hi").toList) 0 0 0 [] [] (by decide)
